import Mathlib

/-! # Agentic governance dashboard: numeric-to-visual utilities

A shallow embedding of the arithmetic in the dashboard source:

* `useAnimatedCounter` (source lines 66-79): the interval callback that counts a
  displayed value up to its target;
* `Sparkline` (source lines 82-103): the mapping from a numeric array to the
  coordinates of an SVG polyline;
* `HeatCell` and `owaspData` (source lines 130-133 and 205-216): the risk buckets of the
  heat map and the literal risk table;
* `RiskGauge` (source lines 106-110): the dash offset of the arc gauge;
* `GovernanceDashboard` (source lines 246-336): the selection of the active tab.

A JavaScript number is a rational or one of the three non-finite values a division
can produce (`NaN`, `Infinity`, `-Infinity`).  Signed zeros are not distinguished
(every zero is `+0`).

The operators `+ - * /` of `JsNum` are exact.  The program rounds the result of every
operator to binary64; `fl` is that rounding, and `JsNum.fl64` applies it to a result.
For the counter both readings are given: `callback`, `run`, `emitted` keep the
accumulator exact, and `callback64`, `run64`, `emitted64` round it as the program does.
The number of ticks and the value shown at a given tick depend on that rounding, and are
stated on the binary64 definitions.
-/

namespace Dashboard

/-! ## JavaScript numbers in exact arithmetic -/

/-- A JavaScript number: a finite value, `NaN`, `Infinity` or `-Infinity`. -/
inductive JsNum where
  | num (q : ℚ)
  | nan
  | posInf
  | negInf
  deriving DecidableEq

namespace JsNum

/-- Unary minus. -/
def neg : JsNum → JsNum
  | num a => num (-a)
  | nan => nan
  | posInf => negInf
  | negInf => posInf

/-- The `+` operator on numbers. -/
def add : JsNum → JsNum → JsNum
  | num a, num b => num (a + b)
  | nan, _ => nan
  | _, nan => nan
  | posInf, negInf => nan
  | negInf, posInf => nan
  | posInf, _ => posInf
  | _, posInf => posInf
  | negInf, _ => negInf
  | _, negInf => negInf

/-- The `-` operator on numbers. -/
def sub (a b : JsNum) : JsNum := add a (neg b)

/-- Product of an infinity and the finite factor `b`, where `s` tells whether the
infinity is positive: `NaN` when `b` is zero, else the infinity whose sign is the
product of the two signs. -/
def infTimes (s : Bool) (b : ℚ) : JsNum :=
  if b = 0 then nan else if decide (0 < b) = s then posInf else negInf

/-- The `*` operator on numbers. -/
def mul : JsNum → JsNum → JsNum
  | num a, num b => num (a * b)
  | nan, _ => nan
  | _, nan => nan
  | posInf, num b => infTimes true b
  | negInf, num b => infTimes false b
  | num a, posInf => infTimes true a
  | num a, negInf => infTimes false a
  | posInf, posInf => posInf
  | negInf, negInf => posInf
  | posInf, negInf => negInf
  | negInf, posInf => negInf

/-- The `/` operator on numbers.  A finite non-zero number over zero is an infinity
of the sign of the numerator, zero over zero is `NaN`. -/
def div : JsNum → JsNum → JsNum
  | num a, num b =>
      if b = 0 then (if a = 0 then nan else if 0 < a then posInf else negInf)
      else num (a / b)
  | nan, _ => nan
  | _, nan => nan
  | num _, posInf => num 0
  | num _, negInf => num 0
  | posInf, num b => if 0 ≤ b then posInf else negInf
  | negInf, num b => if 0 ≤ b then negInf else posInf
  | posInf, posInf => nan
  | posInf, negInf => nan
  | negInf, posInf => nan
  | negInf, negInf => nan

/-- The comparison `a >= b`; any comparison with `NaN` is false. -/
def ge : JsNum → JsNum → Bool
  | num a, num b => decide (b ≤ a)
  | nan, _ => false
  | _, nan => false
  | posInf, _ => true
  | _, negInf => true
  | num _, posInf => false
  | negInf, num _ => false
  | negInf, posInf => false

/-- The comparison `a > b`; any comparison with `NaN` is false. -/
def gt : JsNum → JsNum → Bool
  | num a, num b => decide (b < a)
  | nan, _ => false
  | _, nan => false
  | posInf, posInf => false
  | posInf, _ => true
  | negInf, _ => false
  | num _, negInf => true
  | num _, posInf => false

/-- The comparison `a <= b`; any comparison with `NaN` is false. -/
def le : JsNum → JsNum → Bool
  | num a, num b => decide (a ≤ b)
  | nan, _ => false
  | _, nan => false
  | negInf, _ => true
  | _, posInf => true
  | num _, negInf => false
  | posInf, num _ => false
  | posInf, negInf => false

/-- Truthiness of a number: `0` and `NaN` are falsy. -/
def truthy : JsNum → Bool
  | num a => decide (a ≠ 0)
  | nan => false
  | posInf => true
  | negInf => true

/-- The expression `a || b` on numbers. -/
def orElse (a b : JsNum) : JsNum := if a.truthy then a else b

/-- The function `Math.round`: the nearest integer, a tie going towards `+Infinity`. -/
def round : JsNum → JsNum
  | num a => num (Rat.floor (a + 1 / 2))
  | nan => nan
  | posInf => posInf
  | negInf => negInf

instance : Add JsNum := ⟨add⟩
instance : Sub JsNum := ⟨sub⟩
instance : Mul JsNum := ⟨mul⟩
instance : Div JsNum := ⟨div⟩

end JsNum

open JsNum

/-! ## Rounding to binary64 -/

/-- The power `2 ^ z` for an integer exponent. -/
def pow2 (z : ℤ) : ℚ :=
  if 0 ≤ z then ((2 ^ z.toNat : ℕ) : ℚ) else 1 / ((2 ^ (-z).toNat : ℕ) : ℚ)

/-- The number of halvings that bring `n` below `2`, with at most `fuel` halvings. -/
def log2Aux : ℕ → ℕ → ℕ
  | 0, _ => 0
  | fuel + 1, n => if n < 2 then 0 else log2Aux fuel (n / 2) + 1

/-- One step of the search for the position of the leading bit: if `2 ^ k <= n`, divide
`n` by `2 ^ k` and count `k` more places. -/
def log2Step (p : ℕ × ℕ) (k : ℕ) : ℕ × ℕ :=
  if 2 ^ k ≤ p.1 then (p.1 / 2 ^ k, p.2 + k) else p

/-- The natural number `e` with `2 ^ e <= n < 2 ^ (e + 1)`, for `n >= 1`. -/
def natLog2 (n : ℕ) : ℕ :=
  if n < 2 ^ 4096 then
    ([2048, 1024, 512, 256, 128, 64, 32, 16, 8, 4, 2, 1].foldl log2Step (n, 0)).2
  else log2Aux n n

/-- The integer `e` with `2 ^ e <= n / d < 2 ^ (e + 1)`, for positive `n` and `d`. -/
def ilog2 (n d : ℕ) : ℤ :=
  let e0 : ℤ := (natLog2 n : ℤ) - (natLog2 d : ℤ)
  if (if 0 ≤ e0 then d * 2 ^ e0.toNat ≤ n else d ≤ n * 2 ^ (-e0).toNat) then e0 else e0 - 1

/-- The integer nearest to `n / d`, a tie going to the even neighbour. -/
def roundHalfEven (n d : ℕ) : ℕ :=
  let f := n / d
  let r := n % d
  if 2 * r < d then f
  else if d < 2 * r then f + 1
  else if f % 2 = 0 then f else f + 1

/-- The binary64 number nearest to the rational `q` (round to nearest, ties to even),
as every arithmetic operator and every numeric literal of JavaScript produces it: 53
significant bits, least exponent `-1022` (subnormal numbers below it), and an infinity
when the rounded magnitude reaches `2 ^ 1024`.  With `e` the exponent of `|q|`, not
below `-1022`, the magnitude is rounded to a multiple `m * 2 ^ (e - 52)` of the spacing
of the binary64 numbers at that exponent. -/
def fl (q : ℚ) : JsNum :=
  if q = 0 then num 0
  else
    let n := q.num.natAbs
    let d := q.den
    let e := max (ilog2 n d) (-1022)
    let m := if e ≤ 52 then roundHalfEven (n * 2 ^ (52 - e).toNat) d
      else roundHalfEven n (d * 2 ^ (e - 52).toNat)
    let r := (m : ℚ) * pow2 (e - 52)
    if pow2 1024 ≤ r then (if 0 < q then posInf else negInf)
    else num (if 0 < q then r else -r)

/-- Rounding of the exact result of an operator to binary64; the non-finite values are
kept. -/
def JsNum.fl64 : JsNum → JsNum
  | num q => fl q
  | nan => nan
  | posInf => posInf
  | negInf => negInf

/-- The call `Math.max(...data)`: starts from `-Infinity` and keeps the larger value. -/
def mathMax (data : List ℚ) : JsNum :=
  data.foldl (fun highest v => if (num v).gt highest then num v else highest) negInf

/-- The call `Math.min(...data)`: starts from `Infinity` and keeps the smaller value. -/
def mathMin (data : List ℚ) : JsNum :=
  data.foldl (fun lowest v => if lowest.gt (num v) then num v else lowest) posInf

/-! ## The animated counter -/

/-- State of one run of the effect of `useAnimatedCounter`: the displayed value
`val` (last argument of `setVal`), the accumulator `start` of the closure, and
whether the interval `timer` is still set. -/
structure CounterState where
  val : JsNum
  start : JsNum
  timer : Bool
  deriving DecidableEq

namespace useAnimatedCounter

/-- The increment `target / (duration / 16)` (source line 70), computed exactly. -/
def step (target duration : ℚ) : JsNum := num target / (num duration / num 16)

/-- State when the effect has just run: `useState(0)`, `let start = 0`, and the
interval has been set. -/
def init : CounterState := { val := num 0, start := num 0, timer := true }

/-- Body of the interval callback (source lines 72-74), with an exact accumulator. -/
def callback (target duration : ℚ) (s : CounterState) : CounterState :=
  let start := s.start + step target duration
  if start.ge (num target) then { val := num target, start := start, timer := false }
  else { val := (start * num 10).round / num 10, start := start, timer := true }

/-- One period of 16 ms: the callback runs if and only if the interval is still set. -/
def tick (target duration : ℚ) (s : CounterState) : CounterState :=
  if s.timer then callback target duration s else s

/-- State after `n` periods of 16 ms, starting from `s`. -/
def runFrom (target duration : ℚ) : ℕ → CounterState → CounterState
  | 0, s => s
  | n + 1, s => runFrom target duration n (tick target duration s)

/-- State after `n` periods of 16 ms of a fresh effect. -/
def run (target duration : ℚ) (n : ℕ) : CounterState := runFrom target duration n init

/-- The values passed to `setVal`, in order, during the first `n` periods of 16 ms
starting from `s`. -/
def emittedFrom (target duration : ℚ) : ℕ → CounterState → List JsNum
  | 0, _ => []
  | n + 1, s =>
      if s.timer then
        (callback target duration s).val ::
          emittedFrom target duration n (callback target duration s)
      else []

/-- The values a fresh effect passes to `setVal` during its first `n` periods. -/
def emitted (target duration : ℚ) (n : ℕ) : List JsNum := emittedFrom target duration n init

/-- The increment `target / (duration / 16)` as the program computes it: both
divisions rounded to binary64, on the binary64 values of the two arguments. -/
def step64 (target duration : ℚ) : JsNum :=
  (fl target / (fl duration / num 16).fl64).fl64

/-- Body of the interval callback (source lines 72-74) as the program computes it: the
sum `start += step`, the product `start * 10` and the quotient by `10` are rounded to
binary64; `Math.round` and the comparison are exact. -/
def callback64 (target duration : ℚ) (s : CounterState) : CounterState :=
  let start := (s.start + step64 target duration).fl64
  if start.ge (fl target) then { val := fl target, start := start, timer := false }
  else { val := ((start * num 10).fl64.round / num 10).fl64, start := start, timer := true }

/-- One period of 16 ms in binary64: the callback runs if and only if the interval is
still set. -/
def tick64 (target duration : ℚ) (s : CounterState) : CounterState :=
  if s.timer then callback64 target duration s else s

/-- State after `n` periods of 16 ms in binary64, starting from `s`. -/
def runFrom64 (target duration : ℚ) : ℕ → CounterState → CounterState
  | 0, s => s
  | n + 1, s => runFrom64 target duration n (tick64 target duration s)

/-- State after `n` periods of 16 ms of a fresh effect, in binary64. -/
def run64 (target duration : ℚ) (n : ℕ) : CounterState := runFrom64 target duration n init

/-- The values passed to `setVal`, in order, during the first `n` periods of 16 ms
starting from `s`, in binary64. -/
def emittedFrom64 (target duration : ℚ) : ℕ → CounterState → List JsNum
  | 0, _ => []
  | n + 1, s =>
      if s.timer then
        (callback64 target duration s).val ::
          emittedFrom64 target duration n (callback64 target duration s)
      else []

/-- The values a fresh effect passes to `setVal` during its first `n` periods, in
binary64. -/
def emitted64 (target duration : ℚ) (n : ℕ) : List JsNum :=
  emittedFrom64 target duration n init

/-- The cleanup function of the effect, `() => clearInterval(timer)` (source line 76).
It runs when the target changes and when the component unmounts. -/
def cleanup (s : CounterState) : CounterState := { s with timer := false }

/-- Body of the effect (source lines 69-75): a new accumulator `start = 0` and a new
interval.  The React state `val` is not touched. -/
def effect (s : CounterState) : CounterState := { val := s.val, start := num 0, timer := true }

/-- A change of `target` (the only dependency of the effect): the cleanup of the running
effect, followed by the effect for the new target. -/
def retarget (s : CounterState) : CounterState := effect (cleanup s)

/-- The increment as a rational, `target / (duration / 16)`; it is the value of `step`
whenever `duration` is not zero. -/
def inc (target duration : ℚ) : ℚ := target / (duration / 16)

/-- The partial sum `k * inc` rounded to one decimal place, as `Math.round(start * 10) / 10`
computes it at tick `k`. -/
def shown (target duration : ℚ) (k : ℕ) : JsNum :=
  num (((Rat.floor ((k : ℚ) * inc target duration * 10 + 1 / 2) : ℤ) : ℚ) / 10)

/-- A list of numbers is non-decreasing for the comparison `>=`. -/
def NonDecreasing (l : List JsNum) : Prop := l.Pairwise (fun a b => b.ge a = true)

/-- Every value of `l` before its last one is strictly less than `target`. -/
def BelowBeforeLast (target : ℚ) (l : List JsNum) : Prop :=
  ∀ v ∈ l.dropLast, (num target).gt v = true

/-- Every value of `l` before its last one is at most `bound`. -/
def AtMostBeforeLast (bound : ℚ) (l : List JsNum) : Prop :=
  ∀ v ∈ l.dropLast, (num bound).ge v = true

end useAnimatedCounter

/-! ## The sparkline -/

namespace Sparkline

/-- The point computed by the callback of `data.map` for sample `v` at index `i`
(source lines 86-87), with `w = 100` and `h = height`. -/
def point (data : List ℚ) (height : ℚ) (i : ℕ) (v : ℚ) : JsNum × JsNum :=
  let w := num 100
  let h := num height
  let max := mathMax data
  let min := mathMin data
  let x := (num i / (num data.length - num 1)) * w
  let y := h - ((num v - min) / (max - min).orElse (num 1)) * (h - num 4) - num 2
  (x, y)

/-- The list of points `data.map((v, i) => ...)` before it is joined into a string. -/
def pts (data : List ℚ) (height : ℚ) : List (JsNum × JsNum) :=
  data.mapIdx (fun i v => point data height i v)

/-- The error kind the specification names; the source declares no error type. -/
inductive PlotError where
  | invalidInput
  deriving DecidableEq

/-- Outcome of the point computation.  The body of `Sparkline` contains no `throw`, and
`Math.max`, `Math.min`, `map` and the arithmetic operators do not throw on an array of
numbers, so every call completes and yields its point list. -/
def plot (data : List ℚ) (height : ℚ) : Except PlotError (List (JsNum × JsNum)) :=
  Except.ok (pts data height)

/-- A larger sample is plotted with a strictly smaller `y`: whenever the sample at
index `i` is less than the sample at index `j`, the `y` of point `i` is `>` that of
point `j`. -/
def DecreasingInValue (data : List ℚ) (height : ℚ) : Prop :=
  ∀ (i j : ℕ) (vi vj : ℚ), data[i]? = some vi → data[j]? = some vj → vi < vj →
    ∃ pi pj, (pts data height)[i]? = some pi ∧ (pts data height)[j]? = some pj ∧
      pi.2.gt pj.2 = true

/-- The `points` of the filled polyline, from the template
`0,h pts w,h` (source line 99). -/
def fillPoints (data : List ℚ) (height : ℚ) : List (JsNum × JsNum) :=
  (num 0, num height) :: pts data height ++ [(num 100, num height)]

/-- The `points` of the stroked polyline, `pts` itself (source line 100). -/
def strokePoints (data : List ℚ) (height : ℚ) : List (JsNum × JsNum) := pts data height

/-- The gradient id (source line 90): the letters `sg`, the characters of `color` that
are ASCII letters or digits, and the four characters `suffix` cut from
`Math.random().toString(36)`. -/
def gid (color suffix : String) : String :=
  "sg" ++ String.mk (color.toList.filter Char.isAlphanum) ++ suffix

/-- What `Sparkline` draws: the gradient with its id and stop colour, the filled
polyline and the stroked polyline with its colour. -/
structure Drawing where
  gradientId : String
  stopColor : String
  fill : List (JsNum × JsNum)
  stroke : List (JsNum × JsNum)
  strokeColor : String

/-- One evaluation of `Sparkline` on the props `data`, `color`, `height`, where `suffix`
is the random suffix drawn in this evaluation. -/
def draw (data : List ℚ) (color : String) (height : ℚ) (suffix : String) : Drawing :=
  { gradientId := gid color suffix
    stopColor := color
    fill := fillPoints data height
    stroke := strokePoints data height
    strokeColor := color }

end Sparkline

/-! ## The heat map -/

namespace HeatCell

/-- The bucket index of `HeatCell` (source line 132). -/
def idx (risk : JsNum) : ℕ :=
  if risk.le (num 0) then 0
  else if risk.le (num 25) then 1
  else if risk.le (num 50) then 2
  else if risk.le (num 75) then 3
  else 4

/-- The array `colors` of `HeatCell` (source line 131). -/
def colors : List String := ["#1e3a3a", "#0f766e", "#0d9488", "#f59e0b", "#ef4444"]

/-- The array `riskLabels` of `HeatCell` (source line 133). -/
def riskLabels : List String := ["CLEAR", "LOW", "MOD", "HIGH", "CRIT"]

end HeatCell

/-! ## The arc gauge -/

/-- The constant `Math.PI`: the binary64 number nearest to the circle constant, which is
exactly `884279719003555 / 2 ^ 48`. -/
def mathPI : ℚ := 884279719003555 / 281474976710656

namespace RiskGauge

/-- The constant `radius` (source line 107). -/
def radius : ℚ := 36

/-- The circumference `2 * Math.PI * radius` (source line 108). -/
def circ : JsNum := num 2 * num mathPI * num radius

/-- The dash length `circ * 0.75` (source line 109). -/
def dasharray : JsNum := circ * num (3 / 4)

/-- The dash offset `dasharray * (1 - value / 100)` (source line 110). -/
def dashoffset (value : ℚ) : JsNum := dasharray * (num 1 - num value / num 100)

end RiskGauge

/-! ## The tabs of the dashboard -/

namespace GovernanceDashboard

/-- An entry of the array `tabs`. -/
structure Tab where
  id : String
  label : String
  deriving DecidableEq

/-- The array `tabs` (source lines 251-256). -/
def tabs : List Tab :=
  [ { id := "overview", label := "Overview" },
    { id := "owasp", label := "OWASP Risk" },
    { id := "agents", label := "Agent Health" },
    { id := "redteam", label := "Red Team" } ]

/-- The initial value of `activeTab`, `useState("overview")` (source line 247). -/
def initialTab : String := "overview"

/-- A click on the button at index `i` of `tabs.map`: `setActiveTab(t.id)` (source line
319).  There is no button at an index beyond the array, and then nothing changes. -/
def click (activeTab : String) (i : ℕ) : String :=
  match tabs[i]? with
  | some t => t.id
  | none => activeTab

/-- The value of `activeTab` after a sequence of clicks, given by the indices of the
buttons clicked. -/
def activeTabAfter (clicks : List ℕ) : String := clicks.foldl click initialTab

/-- The panels rendered for a value of `activeTab`: each of the four panels is guarded
by `activeTab === ...` with its own literal (source lines 336, 437, 490, 561). -/
def panels (activeTab : String) : List String :=
  ["overview", "owasp", "agents", "redteam"].filter (fun p => decide (activeTab = p))

/-- The buttons drawn highlighted for a value of `activeTab`: those with
`activeTab === t.id` (source lines 321-323). -/
def highlighted (activeTab : String) : List Tab :=
  tabs.filter (fun t => decide (activeTab = t.id))

end GovernanceDashboard

/-- An entry of `owaspData`; the tooltip text `tip` is display text and is left out. -/
structure OwaspEntry where
  id : String
  label : String
  risk : ℚ

/-- The literal array `owaspData` (source lines 205-216). -/
def owaspData : List OwaspEntry :=
  [ { id := "ASI01", label := "Goal Hijack", risk := 12 },
    { id := "ASI02", label := "Tool Misuse", risk := 28 },
    { id := "ASI03", label := "Privilege Abuse", risk := 18 },
    { id := "ASI04", label := "Supply Chain", risk := 45 },
    { id := "ASI05", label := "Rogue Code", risk := 8 },
    { id := "ASI06", label := "Memory Poison", risk := 35 },
    { id := "ASI07", label := "Insecure Comms", risk := 22 },
    { id := "ASI08", label := "Cascade Fail", risk := 15 },
    { id := "ASI09", label := "Trust Exploit", risk := 62 },
    { id := "ASI10", label := "Rogue Agents", risk := 5 } ]

/-! ## Arithmetic on finite numbers -/

namespace JsNum

@[simp] theorem num_add_num (a b : ℚ) : num a + num b = num (a + b) := rfl

@[simp] theorem num_sub_num (a b : ℚ) : num a - num b = num (a - b) := by
  show add (num a) (neg (num b)) = num (a - b)
  simp [add, neg, sub_eq_add_neg]

@[simp] theorem num_mul_num (a b : ℚ) : num a * num b = num (a * b) := rfl

theorem num_div_num (a b : ℚ) (hb : b ≠ 0) : num a / num b = num (a / b) := by
  show div (num a) (num b) = num (a / b)
  simp [div, hb]

@[simp] theorem zero_div_zero : num 0 / num 0 = nan := by
  show div (num 0) (num 0) = nan
  simp [div]

@[simp] theorem nan_mul (a : JsNum) : nan * a = nan := by
  show mul nan a = nan
  cases a <;> rfl

@[simp] theorem ge_num_num (a b : ℚ) : (num a).ge (num b) = decide (b ≤ a) := rfl

@[simp] theorem gt_num_num (a b : ℚ) : (num a).gt (num b) = decide (b < a) := rfl

@[simp] theorem round_num (a : ℚ) : (num a).round = num (Rat.floor (a + 1 / 2)) := rfl

theorem orElse_num (a : ℚ) (b : JsNum) :
    (num a).orElse b = if a = 0 then b else num a := by
  unfold orElse truthy
  by_cases h : a = 0 <;> simp [h]

end JsNum

/-! ## The animated counter: closed form of a run -/

namespace useAnimatedCounter

theorem step_eq (target : ℚ) {duration : ℚ} (hd : duration ≠ 0) :
    step target duration = num (inc target duration) := by
  have h16 : duration / 16 ≠ 0 := div_ne_zero hd (by norm_num)
  unfold step inc
  rw [num_div_num duration 16 (by norm_num), num_div_num target _ h16]

theorem callback_num (target : ℚ) {duration : ℚ} (hd : duration ≠ 0) (v : JsNum) (a : ℚ)
    (b : Bool) :
    callback target duration { val := v, start := num a, timer := b } =
      if target ≤ a + inc target duration then
        { val := num target, start := num (a + inc target duration), timer := false }
      else
        { val := num (((Rat.floor ((a + inc target duration) * 10 + 1 / 2) : ℤ) : ℚ) / 10),
          start := num (a + inc target duration), timer := true } := by
  unfold callback
  simp only [step_eq target hd, num_add_num, ge_num_num, num_mul_num, round_num,
    decide_eq_true_eq]
  rw [num_div_num _ 10 (by norm_num)]

theorem emittedFrom_stopped (target duration : ℚ) (n : ℕ) (s : CounterState)
    (hs : s.timer = false) : emittedFrom target duration n s = [] := by
  cases n with
  | zero => rfl
  | succ n => simp [emittedFrom, hs]

theorem runFrom_stopped (target duration : ℚ) (n : ℕ) (s : CounterState)
    (hs : s.timer = false) : runFrom target duration n s = s := by
  induction n with
  | zero => rfl
  | succ n ih => simp [runFrom, tick, hs, ih]

/-- With a positive target and duration, the partial sum `k * inc` has reached the
target exactly when `k` has reached `⌈duration / 16⌉`. -/
theorem reached_iff {target duration : ℚ} (ht : 0 < target) (hd : 0 < duration) (k : ℕ) :
    target ≤ (k : ℚ) * inc target duration ↔ ⌈duration / 16⌉₊ ≤ k := by
  have h16 : 0 < duration / 16 := by positivity
  rw [Nat.ceil_le]
  unfold inc
  rw [← mul_div_assoc, le_div_iff₀ h16]
  constructor
  · intro h
    by_contra hlt
    push_neg at hlt
    have := mul_lt_mul_of_pos_left hlt ht
    linarith
  · intro h
    have := mul_le_mul_of_nonneg_left h ht.le
    linarith

/-- One callback from the state reached after `k` ticks. -/
theorem callback_at {target duration : ℚ} (ht : 0 < target) (hd : 0 < duration)
    (k : ℕ) (v : JsNum) :
    callback target duration
        { val := v, start := num ((k : ℚ) * inc target duration), timer := true } =
      if ⌈duration / 16⌉₊ ≤ k + 1 then
        { val := num target, start := num (((k + 1 : ℕ) : ℚ) * inc target duration),
          timer := false }
      else
        { val := shown target duration (k + 1),
          start := num (((k + 1 : ℕ) : ℚ) * inc target duration), timer := true } := by
  have hsum : (k : ℚ) * inc target duration + inc target duration =
      ((k + 1 : ℕ) : ℚ) * inc target duration := by push_cast; ring
  rw [callback_num target hd.ne', hsum]
  by_cases h : ⌈duration / 16⌉₊ ≤ k + 1
  · rw [if_pos h, if_pos ((reached_iff ht hd (k + 1)).2 h)]
  · rw [if_neg h, if_neg (fun hr => h ((reached_iff ht hd (k + 1)).1 hr))]
    rfl

/-- Closed form of the values emitted from the state reached after `k` ticks. -/
theorem emittedFrom_closed {target duration : ℚ} (ht : 0 < target) (hd : 0 < duration) :
    ∀ (n k : ℕ) (v : JsNum), k < ⌈duration / 16⌉₊ →
      emittedFrom target duration n
          { val := v, start := num ((k : ℚ) * inc target duration), timer := true } =
        (List.range' (k + 1) (min n (⌈duration / 16⌉₊ - 1 - k))).map (shown target duration)
          ++ (if ⌈duration / 16⌉₊ - k ≤ n then [num target] else []) := by
  intro n
  induction n with
  | zero =>
    intro k v hk
    have : ¬ (⌈duration / 16⌉₊ - k ≤ 0) := by omega
    simp [emittedFrom, this]
  | succ n ih =>
    intro k v hk
    simp only [emittedFrom, if_true]
    rw [callback_at ht hd k v]
    by_cases hstop : ⌈duration / 16⌉₊ ≤ k + 1
    · have h0 : ⌈duration / 16⌉₊ - 1 - k = 0 := by omega
      have h1 : ⌈duration / 16⌉₊ - k ≤ n + 1 := by omega
      simp [hstop, h0, h1, emittedFrom_stopped]
    · have hk1 : k + 1 < ⌈duration / 16⌉₊ := by omega
      rw [if_neg hstop]
      simp only []
      rw [ih (k + 1) _ hk1]
      have hmin : min (n + 1) (⌈duration / 16⌉₊ - 1 - k) =
          min n (⌈duration / 16⌉₊ - 1 - (k + 1)) + 1 := by omega
      have hiff : (⌈duration / 16⌉₊ - (k + 1) ≤ n) ↔ (⌈duration / 16⌉₊ - k ≤ n + 1) := by
        omega
      rw [hmin, List.range'_succ]
      simp only [List.map_cons, List.cons_append, hiff]

/-- Closed form of the state `n` ticks after the state reached after `k` ticks. -/
theorem runFrom_closed {target duration : ℚ} (ht : 0 < target) (hd : 0 < duration) :
    ∀ (n k : ℕ) (v : JsNum), k < ⌈duration / 16⌉₊ →
      runFrom target duration n
          { val := v, start := num ((k : ℚ) * inc target duration), timer := true } =
        if k + n < ⌈duration / 16⌉₊ then
          { val := if n = 0 then v else shown target duration (k + n),
            start := num (((k + n : ℕ) : ℚ) * inc target duration), timer := true }
        else
          { val := num target,
            start := num (((⌈duration / 16⌉₊ : ℕ) : ℚ) * inc target duration),
            timer := false } := by
  intro n
  induction n with
  | zero =>
    intro k v hk
    simp [runFrom, hk]
  | succ n ih =>
    intro k v hk
    simp only [runFrom, tick, if_true]
    rw [callback_at ht hd k v]
    by_cases hstop : ⌈duration / 16⌉₊ ≤ k + 1
    · have hN : ⌈duration / 16⌉₊ = k + 1 := by omega
      have hlt : ¬ (k + (n + 1) < ⌈duration / 16⌉₊) := by omega
      rw [if_pos hstop, if_neg hlt, runFrom_stopped _ _ _ _ rfl, hN]
    · have hk1 : k + 1 < ⌈duration / 16⌉₊ := by omega
      rw [if_neg hstop, ih (k + 1) _ hk1]
      have hiff : (k + 1 + n < ⌈duration / 16⌉₊) ↔ (k + (n + 1) < ⌈duration / 16⌉₊) := by
        omega
      have hadd : k + 1 + n = k + (n + 1) := by omega
      by_cases hn : n = 0
      · subst hn
        simp
      · simp [hiff, hadd, hn]

theorem ceil_pos_of_pos {duration : ℚ} (hd : 0 < duration) : 0 < ⌈duration / 16⌉₊ :=
  Nat.ceil_pos.2 (by positivity)

/-- Closed form of the values a fresh effect emits during its first `n` ticks. -/
theorem emitted_closed {target duration : ℚ} (ht : 0 < target) (hd : 0 < duration) (n : ℕ) :
    emitted target duration n =
      (List.range' 1 (min n (⌈duration / 16⌉₊ - 1))).map (shown target duration)
        ++ (if ⌈duration / 16⌉₊ ≤ n then [num target] else []) := by
  have h := emittedFrom_closed ht hd n 0 (num 0) (ceil_pos_of_pos hd)
  simpa [emitted, init] using h

/-- Closed form of the state of a fresh effect after `n` ticks. -/
theorem run_closed {target duration : ℚ} (ht : 0 < target) (hd : 0 < duration) (n : ℕ) :
    run target duration n =
      if n < ⌈duration / 16⌉₊ then
        { val := if n = 0 then num 0 else shown target duration n,
          start := num ((n : ℚ) * inc target duration), timer := true }
      else
        { val := num target,
          start := num (((⌈duration / 16⌉₊ : ℕ) : ℚ) * inc target duration),
          timer := false } := by
  have h := runFrom_closed ht hd n 0 (num 0) (ceil_pos_of_pos hd)
  simpa [run, init] using h

/-- A fresh effect with target `0` emits `0` on its first tick and stops. -/
theorem emitted_zero {duration : ℚ} (hd : duration ≠ 0) (n : ℕ) :
    emitted 0 duration (n + 1) = [num 0] := by
  have hc := callback_num 0 hd (num 0) 0 true
  simp only [inc, zero_div, add_zero, le_refl, if_true] at hc
  simp [emitted, init, emittedFrom, hc, emittedFrom_stopped]

theorem run_zero {duration : ℚ} (hd : duration ≠ 0) (n : ℕ) :
    run 0 duration (n + 1) = { val := num 0, start := num 0, timer := false } := by
  have hc := callback_num 0 hd (num 0) 0 true
  simp only [inc, zero_div, add_zero, le_refl, if_true] at hc
  simp [run, init, runFrom, tick, hc, runFrom_stopped]

end useAnimatedCounter

/-! ## The sparkline: minimum, maximum and coordinates -/

theorem foldl_max_spec : ∀ (vs : List ℚ) (a : ℚ),
    ∃ m, vs.foldl (fun highest v => if (num v).gt highest then num v else highest) (num a)
        = num m ∧ (m = a ∨ m ∈ vs) ∧ a ≤ m ∧ ∀ v ∈ vs, v ≤ m := by
  intro vs
  induction vs with
  | nil => intro a; exact ⟨a, rfl, Or.inl rfl, le_refl a, by simp⟩
  | cons w ws ih =>
    intro a
    simp only [List.foldl_cons, gt_num_num]
    by_cases h : a < w
    · obtain ⟨m, hm, hmem, hle, hall⟩ := ih w
      refine ⟨m, by simpa [h] using hm, ?_, by linarith, ?_⟩
      · rcases hmem with rfl | hmem
        · exact Or.inr (List.mem_cons_self _ _)
        · exact Or.inr (List.mem_cons_of_mem _ hmem)
      · intro v hv
        rcases List.mem_cons.1 hv with rfl | hv
        · exact hle
        · exact hall v hv
    · obtain ⟨m, hm, hmem, hle, hall⟩ := ih a
      refine ⟨m, by simpa [h] using hm, ?_, hle, ?_⟩
      · rcases hmem with rfl | hmem
        · exact Or.inl rfl
        · exact Or.inr (List.mem_cons_of_mem _ hmem)
      · intro v hv
        rcases List.mem_cons.1 hv with rfl | hv
        · push_neg at h; linarith
        · exact hall v hv

theorem foldl_min_spec : ∀ (vs : List ℚ) (a : ℚ),
    ∃ m, vs.foldl (fun lowest v => if lowest.gt (num v) then num v else lowest) (num a)
        = num m ∧ (m = a ∨ m ∈ vs) ∧ m ≤ a ∧ ∀ v ∈ vs, m ≤ v := by
  intro vs
  induction vs with
  | nil => intro a; exact ⟨a, rfl, Or.inl rfl, le_refl a, by simp⟩
  | cons w ws ih =>
    intro a
    simp only [List.foldl_cons, gt_num_num]
    by_cases h : w < a
    · obtain ⟨m, hm, hmem, hle, hall⟩ := ih w
      refine ⟨m, by simpa [h] using hm, ?_, by linarith, ?_⟩
      · rcases hmem with rfl | hmem
        · exact Or.inr (List.mem_cons_self _ _)
        · exact Or.inr (List.mem_cons_of_mem _ hmem)
      · intro v hv
        rcases List.mem_cons.1 hv with rfl | hv
        · exact hle
        · exact hall v hv
    · obtain ⟨m, hm, hmem, hle, hall⟩ := ih a
      refine ⟨m, by simpa [h] using hm, ?_, hle, ?_⟩
      · rcases hmem with rfl | hmem
        · exact Or.inl rfl
        · exact Or.inr (List.mem_cons_of_mem _ hmem)
      · intro v hv
        rcases List.mem_cons.1 hv with rfl | hv
        · push_neg at h; linarith
        · exact hall v hv

/-- On a non-empty array `Math.max` returns the greatest sample. -/
theorem mathMax_spec {data : List ℚ} (hne : data ≠ []) :
    ∃ m, mathMax data = num m ∧ m ∈ data ∧ ∀ v ∈ data, v ≤ m := by
  cases data with
  | nil => exact absurd rfl hne
  | cons a vs =>
    obtain ⟨m, hm, hmem, hle, hall⟩ := foldl_max_spec vs a
    refine ⟨m, ?_, ?_, ?_⟩
    · simpa [mathMax, gt] using hm
    · rcases hmem with rfl | hmem
      · exact List.mem_cons_self _ _
      · exact List.mem_cons_of_mem _ hmem
    · intro v hv
      rcases List.mem_cons.1 hv with rfl | hv
      · exact hle
      · exact hall v hv

/-- On a non-empty array `Math.min` returns the least sample. -/
theorem mathMin_spec {data : List ℚ} (hne : data ≠ []) :
    ∃ m, mathMin data = num m ∧ m ∈ data ∧ ∀ v ∈ data, m ≤ v := by
  cases data with
  | nil => exact absurd rfl hne
  | cons a vs =>
    obtain ⟨m, hm, hmem, hle, hall⟩ := foldl_min_spec vs a
    refine ⟨m, ?_, ?_, ?_⟩
    · simpa [mathMin, gt] using hm
    · rcases hmem with rfl | hmem
      · exact List.mem_cons_self _ _
      · exact List.mem_cons_of_mem _ hmem
    · intro v hv
      rcases List.mem_cons.1 hv with rfl | hv
      · exact hle
      · exact hall v hv

theorem mathMax_eq {data : List ℚ} {mx : ℚ} (hmem : mx ∈ data) (hub : ∀ v ∈ data, v ≤ mx) :
    mathMax data = num mx := by
  obtain ⟨m, hm, hmm, hall⟩ := mathMax_spec (List.ne_nil_of_mem hmem)
  rw [hm, le_antisymm (hub m hmm) (hall mx hmem)]

theorem mathMin_eq {data : List ℚ} {mn : ℚ} (hmem : mn ∈ data) (hlb : ∀ v ∈ data, mn ≤ v) :
    mathMin data = num mn := by
  obtain ⟨m, hm, hmm, hall⟩ := mathMin_spec (List.ne_nil_of_mem hmem)
  rw [hm, le_antisymm (hall mn hmem) (hlb m hmm)]

namespace Sparkline

/-- The point at position `i` of the list is the callback applied to index `i` and
sample `data[i]`. -/
theorem getElem?_pts (data : List ℚ) (height : ℚ) (i : ℕ) :
    (pts data height)[i]? = (data[i]?).map (point data height i) := by
  unfold pts
  exact List.getElem?_mapIdx

theorem length_pts (data : List ℚ) (height : ℚ) : (pts data height).length = data.length := by
  unfold pts
  exact List.length_mapIdx

/-- The `y` coordinate when the extrema are finite. -/
theorem point_snd (data : List ℚ) (height : ℚ) (i : ℕ) (v : ℚ) {mx mn : ℚ}
    (hmax : mathMax data = num mx) (hmin : mathMin data = num mn) :
    (point data height i v).2 =
      num (height - (v - mn) / (if mx - mn = 0 then 1 else mx - mn) * (height - 4) - 2) := by
  unfold point
  simp only [hmax, hmin, num_sub_num, orElse_num]
  by_cases h : mx - mn = 0
  · simp only [h, if_true]
    rw [num_div_num _ 1 one_ne_zero]
    simp
  · simp only [h, if_false]
    rw [num_div_num _ _ h]
    simp

/-- The `x` coordinate when the array has at least two samples. -/
theorem point_fst (data : List ℚ) (height : ℚ) (i : ℕ) (v : ℚ) (hn : 2 ≤ data.length) :
    (point data height i v).1 = num ((i : ℚ) / ((data.length : ℚ) - 1) * 100) := by
  have h2 : (2 : ℚ) ≤ (data.length : ℚ) := by exact_mod_cast hn
  have hne : (data.length : ℚ) - 1 ≠ 0 := by linarith
  unfold point
  simp only [num_sub_num]
  rw [num_div_num _ _ hne]
  simp

end Sparkline

/-! ## The animated counter: rounding -/

namespace useAnimatedCounter

theorem ratFloor_eq (q : ℚ) : Rat.floor q = ⌊q⌋ := rfl

theorem inc_nonneg {target duration : ℚ} (ht : 0 ≤ target) (hd : 0 < duration) :
    0 ≤ inc target duration := by
  unfold inc
  positivity

/-- The displayed values grow with the tick number. -/
theorem shown_mono {target duration : ℚ} (ht : 0 ≤ target) (hd : 0 < duration) {a b : ℕ}
    (h : a ≤ b) : (shown target duration b).ge (shown target duration a) = true := by
  have hinc := inc_nonneg ht hd
  have hab : (a : ℚ) ≤ (b : ℚ) := by exact_mod_cast h
  have hmul : (a : ℚ) * inc target duration * 10 + 1 / 2 ≤
      (b : ℚ) * inc target duration * 10 + 1 / 2 := by
    have := mul_le_mul_of_nonneg_right hab hinc
    linarith
  have hfl : ((Rat.floor ((a : ℚ) * inc target duration * 10 + 1 / 2) : ℤ) : ℚ) ≤
      ((Rat.floor ((b : ℚ) * inc target duration * 10 + 1 / 2) : ℤ) : ℚ) := by
    rw [ratFloor_eq, ratFloor_eq]
    exact_mod_cast Int.floor_mono hmul
  simp only [shown, ge_num_num, decide_eq_true_eq]
  linarith

/-- A value displayed before the target is reached is at most the target rounded to
one decimal place. -/
theorem shown_le_rounded_target {target duration : ℚ} (ht : 0 < target) (hd : 0 < duration)
    {k : ℕ} (hk : k < ⌈duration / 16⌉₊) :
    (num (((Rat.floor (target * 10 + 1 / 2) : ℤ) : ℚ) / 10)).ge (shown target duration k)
      = true := by
  have hlt : (k : ℚ) * inc target duration < target := by
    by_contra hge
    push_neg at hge
    exact absurd ((reached_iff ht hd k).1 hge) (by omega)
  have hfl : ((Rat.floor ((k : ℚ) * inc target duration * 10 + 1 / 2) : ℤ) : ℚ) ≤
      ((Rat.floor (target * 10 + 1 / 2) : ℤ) : ℚ) := by
    rw [ratFloor_eq, ratFloor_eq]
    exact_mod_cast Int.floor_mono (by linarith)
  simp only [shown, ge_num_num, decide_eq_true_eq]
  linarith

/-- Rounding to one decimal place leaves a number with at most one decimal unchanged. -/
theorem rounded_of_tenths {target : ℚ} {m : ℤ} (h : target * 10 = m) :
    ((Rat.floor (target * 10 + 1 / 2) : ℤ) : ℚ) / 10 = target := by
  have hfl : Rat.floor (target * 10 + 1 / 2) = m := by
    rw [ratFloor_eq, h, Int.floor_eq_iff]
    constructor <;> norm_num
  rw [hfl, ← h]
  ring

end useAnimatedCounter

/-! ## The animated counter: claims -/

namespace useAnimatedCounter

/-- C1: for every target `>= 0` and duration `> 0` the emission is finite and ends with
the target: there is a tick count `N >= 1` after which the interval is cleared, exactly
`N` values have been emitted, no later period emits anything more, and the last emitted
value is exactly `target`. -/
theorem emitted_finite_last_eq_target (target duration : ℚ) (ht : 0 ≤ target)
    (hd : 0 < duration) :
    ∃ N, 1 ≤ N ∧ (run target duration N).timer = false ∧
      (emitted target duration N).length = N ∧
      (∀ n, N ≤ n → emitted target duration n = emitted target duration N) ∧
      (emitted target duration N).getLast? = some (num target) := by
  rcases ht.eq_or_lt with h0 | hpos
  · subst h0
    refine ⟨1, le_refl 1, ?_, ?_, ?_, ?_⟩
    · rw [run_zero hd.ne']
    · rw [emitted_zero hd.ne']; rfl
    · intro n hn
      obtain ⟨m, rfl⟩ : ∃ m, n = m + 1 := ⟨n - 1, by omega⟩
      rw [emitted_zero hd.ne', emitted_zero hd.ne']
    · rw [emitted_zero hd.ne']; rfl
  · have hN := ceil_pos_of_pos hd
    refine ⟨⌈duration / 16⌉₊, hN, ?_, ?_, ?_, ?_⟩
    · rw [run_closed hpos hd, if_neg (lt_irrefl _)]
    · rw [emitted_closed hpos hd]
      simp
      omega
    · intro n hn
      rw [emitted_closed hpos hd n, emitted_closed hpos hd ⌈duration / 16⌉₊]
      have h1 : min n (⌈duration / 16⌉₊ - 1) = ⌈duration / 16⌉₊ - 1 := by omega
      have h2 : min ⌈duration / 16⌉₊ (⌈duration / 16⌉₊ - 1) = ⌈duration / 16⌉₊ - 1 := by
        omega
      rw [h1, h2, if_pos hn, if_pos (le_refl _)]
    · rw [emitted_closed hpos hd, if_pos (le_refl _)]
      simp

/-- Witness of C1 at the dashboard input `target = 94`, `duration = 1200`. -/
theorem emitted_finite_last_eq_target_witness :
    (0 : ℚ) ≤ 94 ∧ (0 : ℚ) < 1200 ∧
      ∃ N, 1 ≤ N ∧ (run 94 1200 N).timer = false ∧ (emitted 94 1200 N).length = N ∧
        (∀ n, N ≤ n → emitted 94 1200 n = emitted 94 1200 N) ∧
        (emitted 94 1200 N).getLast? = some (num 94) :=
  ⟨by norm_num, by norm_num,
    emitted_finite_last_eq_target 94 1200 (by norm_num) (by norm_num)⟩

/-- C2 as stated fails.  At the dashboard input `target = 1`, `duration = 1200` the
value emitted at tick 73 (of 75) is already `1`, so a value before the last is not
strictly less than the target.  At `target = 9/100`, `duration = 48` the three emitted
values are `0, 1/10, 9/100`: the rounded value `1/10` exceeds the target and the
sequence decreases at its last step. -/
theorem rounding_reaches_target_early :
    ((0 : ℚ) ≤ 1 ∧ (0 : ℚ) < 1200 ∧ (run 1 1200 75).timer = false ∧
        (emitted 1 1200 75)[72]? = some (num 1) ∧
        ¬ BelowBeforeLast 1 (emitted 1 1200 75)) ∧
      ((0 : ℚ) ≤ 9 / 100 ∧ (0 : ℚ) < 48 ∧ (run (9 / 100) 48 3).timer = false ∧
        emitted (9 / 100) 48 3 = [num 0, num (1 / 10), num (9 / 100)] ∧
        ¬ BelowBeforeLast (9 / 100) (emitted (9 / 100) 48 3) ∧
        ¬ NonDecreasing (emitted (9 / 100) 48 3)) := by
  unfold BelowBeforeLast NonDecreasing
  decide!

/-- C2, amended: for every target `>= 0` and duration `> 0`, once the counter has
stopped, every value emitted before the last is at most the target rounded to one
decimal place, the values before the last are non-decreasing, and when `10 * target`
is an integer every value before the last is at most `target` and the whole emitted
sequence is non-decreasing. -/
theorem before_last_rounded_bound (target duration : ℚ) (ht : 0 ≤ target)
    (hd : 0 < duration) (n : ℕ) (hstop : (run target duration n).timer = false) :
    AtMostBeforeLast (((Rat.floor (target * 10 + 1 / 2) : ℤ) : ℚ) / 10)
        (emitted target duration n) ∧
      NonDecreasing (emitted target duration n).dropLast ∧
      ((∃ m : ℤ, target * 10 = m) →
        AtMostBeforeLast target (emitted target duration n) ∧
          NonDecreasing (emitted target duration n)) := by
  rcases ht.eq_or_lt with h0 | hpos
  · subst h0
    cases n with
    | zero => simp [run, runFrom, init] at hstop
    | succ m =>
      rw [emitted_zero hd.ne']
      simp [AtMostBeforeLast, NonDecreasing]
  · have hn : ⌈duration / 16⌉₊ ≤ n := by
      by_contra hlt
      have hlt2 : n < ⌈duration / 16⌉₊ := by omega
      rw [run_closed hpos hd, if_pos hlt2] at hstop
      simp at hstop
    have hmin : min n (⌈duration / 16⌉₊ - 1) = ⌈duration / 16⌉₊ - 1 := by omega
    have hem : emitted target duration n =
        (List.range' 1 (⌈duration / 16⌉₊ - 1)).map (shown target duration)
          ++ [num target] := by
      rw [emitted_closed hpos hd, hmin, if_pos hn]
    have hbound : ∀ v ∈ (List.range' 1 (⌈duration / 16⌉₊ - 1)).map (shown target duration),
        (num (((Rat.floor (target * 10 + 1 / 2) : ℤ) : ℚ) / 10)).ge v = true := by
      intro v hv
      obtain ⟨k, hk, rfl⟩ := List.mem_map.1 hv
      have hk2 := List.mem_range'_1.1 hk
      have hk3 : k < ⌈duration / 16⌉₊ := by omega
      exact shown_le_rounded_target hpos hd hk3
    have hsorted : NonDecreasing
        ((List.range' 1 (⌈duration / 16⌉₊ - 1)).map (shown target duration)) := by
      unfold NonDecreasing
      rw [List.pairwise_map]
      exact (List.pairwise_lt_range' 1 (⌈duration / 16⌉₊ - 1)).imp
        (fun hab => shown_mono ht hd (Nat.le_of_lt hab))
    rw [hem]
    refine ⟨?_, ?_, ?_⟩
    · unfold AtMostBeforeLast
      rw [List.dropLast_concat]
      exact hbound
    · rw [List.dropLast_concat]
      exact hsorted
    · rintro ⟨m, hm⟩
      have hb2 : ∀ v ∈ (List.range' 1 (⌈duration / 16⌉₊ - 1)).map (shown target duration),
          (num target).ge v = true := by
        intro v hv
        have := hbound v hv
        rwa [rounded_of_tenths hm] at this
      refine ⟨?_, ?_⟩
      · unfold AtMostBeforeLast
        rw [List.dropLast_concat]
        exact hb2
      · unfold NonDecreasing
        rw [List.pairwise_append]
        refine ⟨hsorted, List.pairwise_singleton _ _, ?_⟩
        intro a ha b hb
        rw [List.mem_singleton.1 hb]
        exact hb2 a ha

/-- Witness of the amended C2 at `target = 94`, `duration = 1200` after 75 ticks. -/
theorem before_last_rounded_bound_witness :
    (0 : ℚ) ≤ 94 ∧ (0 : ℚ) < 1200 ∧ (run 94 1200 75).timer = false ∧
      AtMostBeforeLast (((Rat.floor ((94 : ℚ) * 10 + 1 / 2) : ℤ) : ℚ) / 10)
        (emitted 94 1200 75) ∧
      NonDecreasing (emitted 94 1200 75).dropLast ∧
      ((∃ m : ℤ, (94 : ℚ) * 10 = m) →
        AtMostBeforeLast 94 (emitted 94 1200 75) ∧ NonDecreasing (emitted 94 1200 75)) :=
  ⟨by norm_num, by norm_num, by decide!,
    before_last_rounded_bound 94 1200 (by norm_num) (by norm_num) 75 (by decide!)⟩

/-- With an exact accumulator, for every target `> 0` and duration `> 0` the interval is
still set after `n` ticks if and only if `n < ⌈duration / 16⌉`, the number of values
emitted in `n` periods is `min n ⌈duration / 16⌉`, and the value emitted at tick
`⌈duration / 16⌉` is `target`.  The binary64 accumulator of the program can need one
tick more. -/
theorem exact_stops_after_ceil_ticks (target duration : ℚ) (ht : 0 < target) (hd : 0 < duration) :
    (∀ n, (run target duration n).timer = true ↔ n < ⌈duration / 16⌉₊) ∧
      (∀ n, (emitted target duration n).length = min n ⌈duration / 16⌉₊) ∧
      (emitted target duration ⌈duration / 16⌉₊).getLast? = some (num target) := by
  have hN := ceil_pos_of_pos hd
  refine ⟨?_, ?_, ?_⟩
  · intro n
    rw [run_closed ht hd]
    by_cases h : n < ⌈duration / 16⌉₊ <;> simp [h]
  · intro n
    rw [emitted_closed ht hd]
    by_cases h : ⌈duration / 16⌉₊ ≤ n
    · simp [h]
      omega
    · simp [h]
      omega
  · rw [emitted_closed ht hd, if_pos (le_refl _)]
    simp

end useAnimatedCounter

/-! ## The sparkline: claims -/

namespace Sparkline

/-- C3: the point list has exactly `data.length` points and its `i`-th point is the one
computed from index `i` and sample `data[i]`, in input order.  This holds for every
array, in particular for every non-empty one. -/
theorem pts_length_and_order (data : List ℚ) (height : ℚ) :
    (pts data height).length = data.length ∧
      ∀ i : ℕ, (pts data height)[i]? = (data[i]?).map (point data height i) :=
  ⟨length_pts data height, getElem?_pts data height⟩

/-- C4: for an array of `n >= 2` samples whose least sample `mn` is less than its
greatest sample `mx`, the `i`-th point is `x = (i / (n - 1)) * 100` and
`y = h - ((data[i] - mn) / (mx - mn)) * (h - 4) - 2`. -/
theorem pts_formula (data : List ℚ) (height mn mx : ℚ) (hn : 2 ≤ data.length)
    (hmn : mn ∈ data) (hlb : ∀ v ∈ data, mn ≤ v) (hmx : mx ∈ data)
    (hub : ∀ v ∈ data, v ≤ mx) (hlt : mn < mx) :
    ∀ i : ℕ, (pts data height)[i]? = (data[i]?).map (fun v =>
      (num ((i : ℚ) / ((data.length : ℚ) - 1) * 100),
        num (height - (v - mn) / (mx - mn) * (height - 4) - 2))) := by
  intro i
  rw [getElem?_pts data height i]
  congr 1
  funext v
  have hne : mx - mn ≠ 0 := by linarith
  have hy := point_snd data height i v (mathMax_eq hmx hub) (mathMin_eq hmn hlb)
  rw [if_neg hne] at hy
  exact Prod.ext (point_fst data height i v hn) hy

/-- Witness of C4 at `data = [0, 10]`, `height = 32`, with least sample `0` and
greatest sample `10`. -/
theorem pts_formula_witness :
    (2 ≤ ([0, 10] : List ℚ).length ∧ (0 : ℚ) ∈ ([0, 10] : List ℚ) ∧
        (∀ v ∈ ([0, 10] : List ℚ), (0 : ℚ) ≤ v) ∧ (10 : ℚ) ∈ ([0, 10] : List ℚ) ∧
        (∀ v ∈ ([0, 10] : List ℚ), v ≤ (10 : ℚ)) ∧ (0 : ℚ) < 10) ∧
      ∀ i : ℕ, (pts [0, 10] 32)[i]? = (([0, 10] : List ℚ)[i]?).map (fun v =>
        (num ((i : ℚ) / (((([0, 10] : List ℚ).length : ℕ) : ℚ) - 1) * 100),
          num (32 - (v - 0) / (10 - 0) * (32 - 4) - 2))) :=
  ⟨⟨by decide, by simp, by simp, by simp, by simp, by norm_num⟩,
    pts_formula [0, 10] 32 0 10 (by decide) (by simp) (by simp) (by simp)
      (by simp) (by norm_num)⟩

/-- C5 as stated fails: on the empty array the point computation completes, raises no
`InvalidInput` error, and returns the empty point list (`Math.max()` is `-Infinity`,
`Math.min()` is `Infinity`, and `map` runs its callback zero times). -/
theorem plot_empty_no_error :
    mathMax [] = negInf ∧ mathMin [] = posInf ∧ plot [] 32 = Except.ok [] ∧
      plot [] 32 ≠ Except.error PlotError.invalidInput := by
  refine ⟨rfl, rfl, rfl, ?_⟩
  intro h
  cases h

/-- C5, amended: applied to an empty data array, the point computation returns the
empty point list for every height, and raises no error. -/
theorem plot_empty (height : ℚ) : plot [] height = Except.ok [] := rfl

/-- C6 fails on the code: for an array with exactly one sample `v` the division
`0 / (1 - 1)` is not guarded, so the single point has `x = NaN` (and `y = h - 2`). -/
theorem pts_single_sample_x_nan (v height : ℚ) :
    pts [v] height = [(nan, num (height - 2))] := by
  have hmax : mathMax [v] = num v := mathMax_eq (List.mem_singleton_self v) (by simp)
  have hmin : mathMin [v] = num v := mathMin_eq (List.mem_singleton_self v) (by simp)
  have hy := point_snd [v] height 0 v hmax hmin
  have hx : (point [v] height 0 v).1 = nan := by
    unfold point
    simp
  have hp : point [v] height 0 v = (nan, num (height - 2)) := by
    refine Prod.ext hx ?_
    rw [hy]
    simp
  simp [pts, List.mapIdx_cons, hp]

/-- C7: for a non-empty array whose samples are all equal and every height `h`, every
point has the finite `y` coordinate `h - 2`. -/
theorem pts_constant_series (data : List ℚ) (height c : ℚ) (hne : data ≠ [])
    (hc : ∀ v ∈ data, v = c) : ∀ p ∈ pts data height, p.2 = num (height - 2) := by
  have hmem : c ∈ data := by
    obtain ⟨a, ha⟩ := List.exists_mem_of_ne_nil data hne
    rw [← hc a ha]
    exact ha
  have hmax : mathMax data = num c := mathMax_eq hmem (fun v hv => (hc v hv).le)
  have hmin : mathMin data = num c := mathMin_eq hmem (fun v hv => (hc v hv).ge)
  intro p hp
  obtain ⟨i, hi⟩ := List.mem_iff_getElem?.1 hp
  rw [getElem?_pts data height i] at hi
  obtain ⟨v, hv, rfl⟩ := Option.map_eq_some'.1 hi
  rw [point_snd data height i v hmax hmin, hc v (List.getElem?_mem hv)]
  simp

/-- Witness of C7 at `data = [5, 5, 5]`, `height = 32`. -/
theorem pts_constant_series_witness :
    ([5, 5, 5] : List ℚ) ≠ [] ∧ (∀ v ∈ ([5, 5, 5] : List ℚ), v = 5) ∧
      ∀ p ∈ pts [5, 5, 5] 32, p.2 = num (32 - 2) :=
  ⟨by simp, by simp, pts_constant_series [5, 5, 5] 32 5 (by simp) (by simp)⟩

/-- C8 as stated fails: with `data = [0, 10]` and the positive height `2` the points are
`(0, 0)` and `(100, 2)`, so the larger sample has the larger `y`. -/
theorem not_decreasing_at_height_two :
    (0 : ℚ) < 2 ∧ pts [0, 10] 2 = [(num 0, num 0), (num 100, num 2)] ∧
      ¬ DecreasingInValue [0, 10] 2 := by
  have hpts : pts [0, 10] 2 = [(num 0, num 0), (num 100, num 2)] := by decide!
  refine ⟨by norm_num, hpts, ?_⟩
  intro h
  obtain ⟨pi, pj, hi, hj, hgt⟩ := h 0 1 0 10 rfl rfl (by norm_num)
  rw [hpts] at hi hj
  simp only [List.getElem?_cons_zero, List.getElem?_cons_succ, Option.some.injEq] at hi hj
  subst hi
  subst hj
  simp at hgt
  norm_num at hgt

/-- C8, amended: for every data array and every height `h > 4`, a larger sample value
maps to a strictly smaller `y`. -/
theorem decreasing_in_value (data : List ℚ) (height : ℚ) (hh : 4 < height) :
    DecreasingInValue data height := by
  intro i j vi vj hi hj hlt
  have hmi : vi ∈ data := List.getElem?_mem hi
  have hmj : vj ∈ data := List.getElem?_mem hj
  obtain ⟨mx, hmax, -, hub⟩ := mathMax_spec (List.ne_nil_of_mem hmi)
  obtain ⟨mn, hmin, -, hlb⟩ := mathMin_spec (List.ne_nil_of_mem hmi)
  have hr : 0 < mx - mn := by
    have := hub vj hmj
    have := hlb vi hmi
    linarith
  refine ⟨point data height i vi, point data height j vj, ?_, ?_, ?_⟩
  · rw [getElem?_pts data height i, hi]; rfl
  · rw [getElem?_pts data height j, hj]; rfl
  · rw [point_snd data height i vi hmax hmin, point_snd data height j vj hmax hmin,
      if_neg hr.ne', gt_num_num, decide_eq_true_eq]
    have hdiv : (vi - mn) / (mx - mn) < (vj - mn) / (mx - mn) :=
      div_lt_div_of_pos_right (by linarith) hr
    have h4 : 0 < height - 4 := by linarith
    have := mul_lt_mul_of_pos_right hdiv h4
    linarith

/-- Witness of the amended C8 at `data = [0, 10]`, `height = 32`. -/
theorem decreasing_in_value_witness :
    (4 : ℚ) < 32 ∧ DecreasingInValue [0, 10] 32 :=
  ⟨by norm_num, decreasing_in_value [0, 10] 32 (by norm_num)⟩

/-- C9: for `data = [0, 10]` and height 32 the points are exactly `(0, 30)` and
`(100, 2)`, in that order. -/
theorem pts_zero_ten : pts [0, 10] 32 = [(num 0, num 30), (num 100, num 2)] := by
  decide!

end Sparkline


/-! ## The animated counter: values by tick -/

namespace useAnimatedCounter

/-- The value emitted at tick `j + 1` by a fresh effect, among the first `n` ticks. -/
theorem getElem?_emitted {target duration : ℚ} (ht : 0 < target) (hd : 0 < duration)
    (n j : ℕ) :
    (emitted target duration n)[j]? =
      if j < n then
        (if j + 1 < ⌈duration / 16⌉₊ then some (shown target duration (j + 1))
          else if j + 1 = ⌈duration / 16⌉₊ then some (num target) else none)
      else none := by
  have hN := ceil_pos_of_pos hd
  rw [emitted_closed ht hd]
  by_cases h1 : j < min n (⌈duration / 16⌉₊ - 1)
  · have hjn : j < n := by omega
    have hjN : j + 1 < ⌈duration / 16⌉₊ := by omega
    rw [List.getElem?_append_left (by simpa using h1), List.getElem?_map,
      List.getElem?_range' 1 1 h1, if_pos hjn, if_pos hjN]
    simp [Nat.add_comm]
  · have hlen : ((List.range' 1 (min n (⌈duration / 16⌉₊ - 1))).map
        (shown target duration)).length ≤ j := by
      simp only [List.length_map, List.length_range']
      omega
    rw [List.getElem?_append_right hlen]
    simp only [List.length_map, List.length_range']
    by_cases hn : ⌈duration / 16⌉₊ ≤ n
    · have hmin : min n (⌈duration / 16⌉₊ - 1) = ⌈duration / 16⌉₊ - 1 := by omega
      rw [if_pos hn, hmin]
      by_cases hj : j + 1 = ⌈duration / 16⌉₊
      · have hjn : j < n := by omega
        have h0 : j - (⌈duration / 16⌉₊ - 1) = 0 := by omega
        rw [h0, if_pos hjn, if_neg (by omega), if_pos hj]
        rfl
      · have hgt : ⌈duration / 16⌉₊ < j + 1 := by omega
        have h1 : j - (⌈duration / 16⌉₊ - 1) = (j - ⌈duration / 16⌉₊) + 1 := by omega
        rw [h1]
        by_cases hjn : j < n
        · rw [if_pos hjn, if_neg (by omega), if_neg hj]
          rfl
        · rw [if_neg hjn]
          rfl
    · have hjn : ¬ j < n := by omega
      rw [if_neg hn, if_neg hjn]
      rfl

end useAnimatedCounter

/-! ## The animated counter: the life cycle of the effect -/

namespace useAnimatedCounter

/-- The callback reads only the accumulator of the state it runs in. -/
theorem callback_congr (target duration : ℚ) (s r : CounterState)
    (hstart : s.start = r.start) : callback target duration s = callback target duration r := by
  unfold callback
  rw [hstart]

/-- The emitted values depend on the accumulator and on the interval only, not on the
value displayed before. -/
theorem emittedFrom_congr (target duration : ℚ) (n : ℕ) (s r : CounterState)
    (hstart : s.start = r.start) (htimer : s.timer = r.timer) :
    emittedFrom target duration n s = emittedFrom target duration n r := by
  cases n with
  | zero => rfl
  | succ m =>
    simp only [emittedFrom]
    rw [htimer, callback_congr target duration s r hstart]

/-- The completion branch of the callback. -/
theorem callback_done (target duration : ℚ) (s : CounterState)
    (hdone : (s.start + step target duration).ge (num target) = true) :
    callback target duration s =
      { val := num target, start := s.start + step target duration, timer := false } := by
  unfold callback
  simp only [hdone, if_true]

end useAnimatedCounter

/-! ## The animated counter: further claims -/

namespace useAnimatedCounter

/-- C11: for target `0` and every duration `> 0` the counter emits exactly one value,
`0`, on its first tick and then stops: the emission within any positive number of
periods is the single value `0`, the interval is cleared from the first tick on, and
no emitted value is negative. -/
theorem zero_target_single_emission (duration : ℚ) (hd : 0 < duration) :
    (∀ n, emitted 0 duration (n + 1) = [num 0]) ∧
      (∀ n, (run 0 duration (n + 1)).timer = false) ∧
      (∀ n, ∀ v ∈ emitted 0 duration n, v.ge (num 0) = true) := by
  refine ⟨fun n => emitted_zero hd.ne' n, fun n => ?_, fun n v hv => ?_⟩
  · rw [run_zero hd.ne']
  · cases n with
    | zero => simp [emitted, emittedFrom] at hv
    | succ m =>
      rw [emitted_zero hd.ne', List.mem_singleton] at hv
      rw [hv]
      simp

/-- Witness of C11 at `duration = 1200`. -/
theorem zero_target_single_emission_witness :
    (0 : ℚ) < 1200 ∧ (∀ n, emitted 0 1200 (n + 1) = [num 0]) ∧
      (∀ n, (run 0 1200 (n + 1)).timer = false) ∧
      (∀ n, ∀ v ∈ emitted 0 1200 n, v.ge (num 0) = true) :=
  ⟨by norm_num, zero_target_single_emission 1200 (by norm_num)⟩

/-- With an exact accumulator, for target `> 0` and duration `> 0` and
`step = target / (duration / 16)`: at tick `k` (counted from 1, within `n >= k` periods),
if `k * step < target` the emitted value is `round(10 * k * step) / 10`; and at the first
`k` with `k * step >= target` the emitted value is `target` and exactly `k` values are
emitted.  The binary64 accumulator of the program is not `k * step` in general. -/
theorem exact_emitted_value_at_tick (target duration : ℚ) (ht : 0 < target) (hd : 0 < duration)
    (k n : ℕ) (hk : 1 ≤ k) (hkn : k ≤ n) :
    step target duration = num (target / (duration / 16)) ∧
      ((k : ℚ) * (target / (duration / 16)) < target →
        (emitted target duration n)[k - 1]? =
          some (num (((⌊10 * ((k : ℚ) * (target / (duration / 16))) + 1 / 2⌋ : ℤ) : ℚ) / 10))) ∧
      (target ≤ (k : ℚ) * (target / (duration / 16)) →
        (∀ j : ℕ, j < k → (j : ℚ) * (target / (duration / 16)) < target) →
        (emitted target duration n)[k - 1]? = some (num target) ∧
          (emitted target duration n).length = k) := by
  have hget := getElem?_emitted ht hd n (k - 1)
  have hk1 : k - 1 + 1 = k := by omega
  have hlt : k - 1 < n := by omega
  rw [hk1, if_pos hlt] at hget
  refine ⟨step_eq target hd.ne', ?_, ?_⟩
  · intro hbelow
    have hkN : k < ⌈duration / 16⌉₊ := by
      by_contra hge
      have := (reached_iff ht hd k).2 (by omega)
      unfold inc at this
      linarith
    rw [hget, if_pos hkN]
    unfold shown inc
    rw [ratFloor_eq]
    congr 5
    ring
  · intro hreach hfirst
    have hNk : ⌈duration / 16⌉₊ ≤ k := (reached_iff ht hd k).1 hreach
    have hkN : k ≤ ⌈duration / 16⌉₊ := by
      by_contra hgt
      have hN := ceil_pos_of_pos hd
      have hlt2 : ⌈duration / 16⌉₊ < k := by omega
      have h1 := hfirst ⌈duration / 16⌉₊ hlt2
      have h2 := (reached_iff ht hd ⌈duration / 16⌉₊).2 (le_refl _)
      unfold inc at h2
      linarith
    have hEq : k = ⌈duration / 16⌉₊ := le_antisymm hkN hNk
    refine ⟨?_, ?_⟩
    · rw [hget, if_neg (by omega), if_pos hEq]
    · rw [emitted_closed ht hd, if_pos (by omega)]
      simp only [List.length_append, List.length_map, List.length_range',
        List.length_singleton]
      omega

/-- C17: once the counter has completed (`c` is a state in which the next callback
finds `start >= target`, emits `target` and clears the interval) or the cleanup has
run on any state `s`, the interval is cleared, and in any number `n` of later periods
nothing is emitted and the state does not change; the same holds from every state
whose interval is cleared. -/
theorem cleared_timer_never_emits (target duration : ℚ) (s c : CounterState) (n : ℕ)
    (hdone : (c.start + step target duration).ge (num target) = true) :
    ((callback target duration c).val = num target ∧
        (callback target duration c).timer = false ∧
        emittedFrom target duration n (callback target duration c) = [] ∧
        runFrom target duration n (callback target duration c) = callback target duration c) ∧
      ((cleanup s).timer = false ∧
        emittedFrom target duration n (cleanup s) = [] ∧
        runFrom target duration n (cleanup s) = cleanup s) ∧
      (∀ q : CounterState, q.timer = false →
        emittedFrom target duration n q = [] ∧ runFrom target duration n q = q) := by
  have hc : (callback target duration c).timer = false := by
    rw [callback_done target duration c hdone]
  refine ⟨⟨?_, hc, emittedFrom_stopped _ _ _ _ hc, runFrom_stopped _ _ _ _ hc⟩,
    ⟨rfl, emittedFrom_stopped _ _ _ _ rfl, runFrom_stopped _ _ _ _ rfl⟩,
    fun q hq => ⟨emittedFrom_stopped _ _ _ _ hq, runFrom_stopped _ _ _ _ hq⟩⟩
  rw [callback_done target duration c hdone]

/-- Witness of C17 at `target = 94`, `duration = 1200`: completion from the state after
74 ticks, cleanup of the state after 10 ticks, and 5 later periods. -/
theorem cleared_timer_never_emits_witness :
    ((run 94 1200 74).start + step 94 1200).ge (num 94) = true ∧
      ((callback 94 1200 (run 94 1200 74)).val = num 94 ∧
        (callback 94 1200 (run 94 1200 74)).timer = false ∧
        emittedFrom 94 1200 5 (callback 94 1200 (run 94 1200 74)) = [] ∧
        runFrom 94 1200 5 (callback 94 1200 (run 94 1200 74)) =
          callback 94 1200 (run 94 1200 74)) ∧
      ((cleanup (run 94 1200 10)).timer = false ∧
        emittedFrom 94 1200 5 (cleanup (run 94 1200 10)) = [] ∧
        runFrom 94 1200 5 (cleanup (run 94 1200 10)) = cleanup (run 94 1200 10)) ∧
      (∀ q : CounterState, q.timer = false →
        emittedFrom 94 1200 5 q = [] ∧ runFrom 94 1200 5 q = q) :=
  ⟨by decide!,
    cleared_timer_never_emits 94 1200 (run 94 1200 10) (run 94 1200 74) 5 (by decide!)⟩

/-- C18: after a change of target, from any state `s` of the previous animation, the
accumulator is `0` again and a new interval is set, and the values emitted in any
number of periods are those of a fresh animation of the new target; in particular they
are the same whatever the previous target `old` and the number `k` of ticks the
previous animation had run. -/
theorem retarget_emits_as_fresh (target duration : ℚ) (s : CounterState) (n : ℕ) :
    (retarget s).start = num 0 ∧ (retarget s).timer = true ∧
      emittedFrom target duration n (retarget s) = emitted target duration n ∧
      (∀ (old : ℚ) (k : ℕ),
        emittedFrom target duration n (retarget (run old duration k)) =
          emitted target duration n) :=
  ⟨rfl, rfl, emittedFrom_congr target duration n (retarget s) init rfl rfl,
    fun old k => emittedFrom_congr target duration n (retarget (run old duration k)) init
      rfl rfl⟩

end useAnimatedCounter

/-! ## The sparkline: positions and bounds -/

namespace Sparkline

/-- The `x` coordinate of the point at index `i` of an array of at least two samples. -/
theorem x_at (data : List ℚ) (height : ℚ) (hn : 2 ≤ data.length) (i : ℕ)
    (hi : i < data.length) :
    ((pts data height)[i]?).map Prod.fst =
      some (num ((i : ℚ) / ((data.length : ℚ) - 1) * 100)) := by
  rw [getElem?_pts, List.getElem?_eq_getElem hi]
  simp only [Option.map_some']
  rw [point_fst data height i _ hn]

/-- The `y` coordinate of the point at index `i`, for the least sample `mn` and the
greatest sample `mx`. -/
theorem y_at (data : List ℚ) (height : ℚ) (i : ℕ) (v : ℚ) (hv : data[i]? = some v)
    {mx mn : ℚ} (hmax : mathMax data = num mx) (hmin : mathMin data = num mn) :
    ((pts data height)[i]?).map Prod.snd =
      some (num (height - (v - mn) / (if mx - mn = 0 then 1 else mx - mn) * (height - 4)
        - 2)) := by
  rw [getElem?_pts, hv]
  simp only [Option.map_some']
  rw [point_snd data height i v hmax hmin]

/-- The fraction `(v - mn) / (mx - mn || 1)` lies between `0` and `1`. -/
theorem fraction_bounds {v mn mx : ℚ} (hlo : mn ≤ v) (hhi : v ≤ mx) :
    0 ≤ (v - mn) / (if mx - mn = 0 then 1 else mx - mn) ∧
      (v - mn) / (if mx - mn = 0 then 1 else mx - mn) ≤ 1 := by
  by_cases h : mx - mn = 0
  · have hv : v - mn = 0 := by linarith
    simp [h, hv]
  · have hpos : 0 < mx - mn := lt_of_le_of_ne (by linarith) (Ne.symm h)
    rw [if_neg h]
    exact ⟨div_nonneg (by linarith) hpos.le, (div_le_one hpos).2 (by linarith)⟩

end Sparkline

/-! ## The sparkline: further claims -/

namespace Sparkline

/-- C13: for every data array, colour, height and random suffix, the filled polyline is
the point `(0, h)`, then the plotted points in order, then the point `(100, h)`, which
makes `n + 2` points for `n` samples, and the stroked polyline is exactly the plotted
points. -/
theorem fill_and_stroke_points (data : List ℚ) (color : String) (height : ℚ)
    (suffix : String) :
    (draw data color height suffix).fill =
        (num 0, num height) :: pts data height ++ [(num 100, num height)] ∧
      (draw data color height suffix).fill.length = data.length + 2 ∧
      (draw data color height suffix).stroke = pts data height := by
  refine ⟨rfl, ?_, rfl⟩
  simp [draw, fillPoints, length_pts]

/-- C14: for a non-empty array and a height `h >= 4`, every `y` satisfies
`2 <= y <= h - 2`; a least sample is plotted at `y = h - 2`, and a greatest sample is
plotted at `y = 2` when some sample is smaller. -/
theorem y_within_padding (data : List ℚ) (height : ℚ) (hne : data ≠ [])
    (hh : 4 ≤ height) :
    (∀ p ∈ pts data height, p.2.ge (num 2) = true ∧ (num (height - 2)).ge p.2 = true) ∧
      (∀ (i : ℕ) (mn : ℚ), data[i]? = some mn → (∀ v ∈ data, mn ≤ v) →
        ((pts data height)[i]?).map Prod.snd = some (num (height - 2))) ∧
      (∀ (i : ℕ) (mx : ℚ), data[i]? = some mx → (∀ v ∈ data, v ≤ mx) →
        (∃ v ∈ data, v < mx) →
        ((pts data height)[i]?).map Prod.snd = some (num 2)) := by
  obtain ⟨mx, hmax, hmxmem, hub⟩ := mathMax_spec hne
  obtain ⟨mn, hmin, hmnmem, hlb⟩ := mathMin_spec hne
  refine ⟨?_, ?_, ?_⟩
  · intro p hp
    obtain ⟨i, hi⟩ := List.mem_iff_getElem?.1 hp
    rw [getElem?_pts data height i] at hi
    obtain ⟨v, hv, rfl⟩ := Option.map_eq_some'.1 hi
    have hvm := List.getElem?_mem hv
    obtain ⟨h0, h1⟩ := fraction_bounds (hlb v hvm) (hub v hvm)
    have h4 : 0 ≤ height - 4 := by linarith
    have hmul0 := mul_nonneg h0 h4
    have hmul1 := mul_le_mul_of_nonneg_right h1 h4
    rw [point_snd data height i v hmax hmin]
    simp only [ge_num_num, decide_eq_true_eq]
    constructor <;> linarith
  · intro i m hi hleast
    have hm : mathMin data = num m := mathMin_eq (List.getElem?_mem hi) hleast
    rw [y_at data height i m hi hmax hm]
    simp
  · intro i m hi hgreatest hsmaller
    obtain ⟨v, hv, hvm⟩ := hsmaller
    have hm : mathMax data = num m := mathMax_eq (List.getElem?_mem hi) hgreatest
    have hne0 : m - mn ≠ 0 := by
      have := hlb v hv
      intro h0
      linarith
    rw [y_at data height i m hi hm hmin, if_neg hne0, div_self hne0]
    congr 2
    ring

/-- Witness of C14 at `data = [0, 10]`, `height = 32`. -/
theorem y_within_padding_witness :
    (([0, 10] : List ℚ) ≠ [] ∧ (4 : ℚ) ≤ 32) ∧
      (∀ p ∈ pts [0, 10] 32, p.2.ge (num 2) = true ∧ (num (32 - 2)).ge p.2 = true) ∧
      (∀ (i : ℕ) (mn : ℚ), ([0, 10] : List ℚ)[i]? = some mn →
        (∀ v ∈ ([0, 10] : List ℚ), mn ≤ v) →
        ((pts [0, 10] 32)[i]?).map Prod.snd = some (num (32 - 2))) ∧
      (∀ (i : ℕ) (mx : ℚ), ([0, 10] : List ℚ)[i]? = some mx →
        (∀ v ∈ ([0, 10] : List ℚ), v ≤ mx) → (∃ v ∈ ([0, 10] : List ℚ), v < mx) →
        ((pts [0, 10] 32)[i]?).map Prod.snd = some (num 2)) :=
  ⟨⟨by simp, by norm_num⟩, y_within_padding [0, 10] 32 (by simp) (by norm_num)⟩

/-- C15 as stated fails: with the height `0` the point computation raises no error; for
`data = [0, 10]` it returns the points `(0, -2)` and `(100, 2)`. -/
theorem plot_height_zero_no_error :
    (0 : ℚ) ≤ 0 ∧ plot [0, 10] 0 = Except.ok [(num 0, num (-2)), (num 100, num 2)] ∧
      plot [0, 10] 0 ≠ Except.error PlotError.invalidInput := by
  have hpts : pts [0, 10] 0 = [(num 0, num (-2)), (num 100, num 2)] := by decide!
  refine ⟨le_refl 0, ?_, ?_⟩
  · unfold plot
    rw [hpts]
  · intro h
    cases h

/-- C15, amended: given a height `<= 0`, the point computation raises no error and
returns the list of points computed by the same formulas, one point per sample. -/
theorem plot_nonpositive_height (data : List ℚ) (height : ℚ) (_hh : height ≤ 0) :
    plot data height = Except.ok (pts data height) ∧
      (pts data height).length = data.length ∧
      ∀ i : ℕ, (pts data height)[i]? = (data[i]?).map (point data height i) :=
  ⟨rfl, length_pts data height, getElem?_pts data height⟩

/-- Witness of the amended C15 at `data = [0, 10]`, `height = 0`. -/
theorem plot_nonpositive_height_witness :
    (0 : ℚ) ≤ 0 ∧ plot [0, 10] 0 = Except.ok (pts [0, 10] 0) ∧
      (pts [0, 10] 0).length = ([0, 10] : List ℚ).length ∧
      ∀ i : ℕ, (pts [0, 10] 0)[i]? = (([0, 10] : List ℚ)[i]?).map (point [0, 10] 0 i) :=
  ⟨le_refl 0, plot_nonpositive_height [0, 10] 0 (le_refl 0)⟩

/-- C16: for an array of `n >= 2` samples there are `n` points, `x_0 = 0`,
`x_(n-1) = 100`, consecutive `x` differ by `100 / (n - 1) > 0`, and the points at two
distinct indices are distinct. -/
theorem x_positions_injective (data : List ℚ) (height : ℚ) (hn : 2 ≤ data.length) :
    (pts data height).length = data.length ∧
      ((pts data height)[0]?).map Prod.fst = some (num 0) ∧
      ((pts data height)[data.length - 1]?).map Prod.fst = some (num 100) ∧
      (0 : ℚ) < 100 / ((data.length : ℚ) - 1) ∧
      (∀ i : ℕ, i + 1 < data.length → ∃ a b : ℚ,
        ((pts data height)[i]?).map Prod.fst = some (num a) ∧
        ((pts data height)[i + 1]?).map Prod.fst = some (num b) ∧
        b - a = 100 / ((data.length : ℚ) - 1)) ∧
      (∀ i j : ℕ, i < data.length → j < data.length →
        (pts data height)[i]? = (pts data height)[j]? → i = j) := by
  have h2 : (2 : ℚ) ≤ (data.length : ℚ) := by exact_mod_cast hn
  have hpos : (0 : ℚ) < (data.length : ℚ) - 1 := by linarith
  refine ⟨length_pts data height, ?_, ?_, by positivity, ?_, ?_⟩
  · rw [x_at data height hn 0 (by omega)]
    simp
  · rw [x_at data height hn (data.length - 1) (by omega)]
    have hcast : ((data.length - 1 : ℕ) : ℚ) = (data.length : ℚ) - 1 := by
      rw [Nat.cast_sub (by omega)]
      simp
    rw [hcast, div_self hpos.ne']
    simp
  · intro i hi
    refine ⟨_, _, x_at data height hn i (by omega), x_at data height hn (i + 1) hi, ?_⟩
    push_cast
    field_simp
    ring
  · intro i j hi hj hij
    have hx : ((pts data height)[i]?).map Prod.fst = ((pts data height)[j]?).map Prod.fst := by
      rw [hij]
    rw [x_at data height hn i hi, x_at data height hn j hj] at hx
    simp only [Option.some.injEq, JsNum.num.injEq] at hx
    have hdiv := mul_right_cancel₀ (show (100 : ℚ) ≠ 0 by norm_num) hx
    have hq : (i : ℚ) = (j : ℚ) := by
      rw [div_eq_div_iff hpos.ne' hpos.ne'] at hdiv
      exact mul_right_cancel₀ hpos.ne' hdiv
    exact_mod_cast hq

/-- Witness of C16 at `data = [0, 10]`, `height = 32`. -/
theorem x_positions_injective_witness :
    2 ≤ ([0, 10] : List ℚ).length ∧
      (pts [0, 10] 32).length = ([0, 10] : List ℚ).length ∧
      ((pts [0, 10] 32)[0]?).map Prod.fst = some (num 0) ∧
      ((pts [0, 10] 32)[([0, 10] : List ℚ).length - 1]?).map Prod.fst = some (num 100) ∧
      (0 : ℚ) < 100 / ((([0, 10] : List ℚ).length : ℚ) - 1) ∧
      (∀ i : ℕ, i + 1 < ([0, 10] : List ℚ).length → ∃ a b : ℚ,
        ((pts [0, 10] 32)[i]?).map Prod.fst = some (num a) ∧
        ((pts [0, 10] 32)[i + 1]?).map Prod.fst = some (num b) ∧
        b - a = 100 / ((([0, 10] : List ℚ).length : ℚ) - 1)) ∧
      (∀ i j : ℕ, i < ([0, 10] : List ℚ).length → j < ([0, 10] : List ℚ).length →
        (pts [0, 10] 32)[i]? = (pts [0, 10] 32)[j]? → i = j) :=
  ⟨by decide, x_positions_injective [0, 10] 32 (by decide)⟩

/-- C19: two evaluations of `Sparkline` with the same data and height draw the same
points, whatever the two colours and the two random suffixes: the stroked and the filled
points are functions of data and height only. -/
theorem points_independent_of_color_and_suffix (data : List ℚ) (height : ℚ)
    (color1 color2 suffix1 suffix2 : String) :
    (draw data color1 height suffix1).stroke = (draw data color2 height suffix2).stroke ∧
      (draw data color1 height suffix1).fill = (draw data color2 height suffix2).fill ∧
      (draw data color1 height suffix1).stroke = pts data height :=
  ⟨rfl, rfl, rfl⟩

end Sparkline

/-! ## The heat map: claims -/

/-- C20: in `owaspData` the entry `ASI09` has risk 62, and every other entry has a
strictly smaller risk and a strictly lower `HeatCell` bucket (ASI09 is in bucket 3). -/
theorem asi09_highest_risk_and_bucket :
    ∃ a ∈ owaspData, a.id = "ASI09" ∧ a.risk = 62 ∧ HeatCell.idx (num a.risk) = 3 ∧
      ∀ e ∈ owaspData, e.id ≠ "ASI09" →
        e.risk < a.risk ∧ HeatCell.idx (num e.risk) < HeatCell.idx (num a.risk) := by
  refine ⟨{ id := "ASI09", label := "Trust Exploit", risk := 62 }, ?_, rfl, rfl, ?_, ?_⟩
  · simp [owaspData]
  · decide!
  · decide!

/-! ## The animated counter: negative targets -/

namespace useAnimatedCounter

/-- With a negative target and a duration of at least 16, the first partial sum has
already reached the target. -/
theorem first_sum_reaches_negative {target duration : ℚ} (ht : target < 0)
    (hd : 16 ≤ duration) : target ≤ 0 + inc target duration := by
  have hx : 1 ≤ duration / 16 := by
    rw [le_div_iff₀ (by norm_num)]
    linarith
  have hpos : 0 < duration / 16 := by linarith
  unfold inc
  rw [zero_add, le_div_iff₀ hpos]
  nlinarith

/-- C21 as stated fails for a duration below 16: with `target = -1` and `duration = 8`
the step is `-2`, the first tick emits `-2` (not the target) without clearing the
interval, and the next ticks emit `-4` and `-6`. -/
theorem negative_target_short_duration :
    ((-1 : ℚ) < 0 ∧ (0 : ℚ) < 8) ∧ emitted (-1) 8 1 = [num (-2)] ∧
      (run (-1) 8 1).timer = true ∧
      emitted (-1) 8 3 = [num (-2), num (-4), num (-6)] ∧ (run (-1) 8 3).timer = true := by
  decide!

/-- C21, amended: for every negative target and every duration `>= 16`, the counter
emits `target` on its very first tick and stops: the emission within any positive
number of periods is the single value `target` and the interval is cleared from the
first tick on. -/
theorem negative_target_first_tick (target duration : ℚ) (ht : target < 0)
    (hd : 16 ≤ duration) :
    (∀ n, emitted target duration (n + 1) = [num target]) ∧
      (∀ n, (run target duration (n + 1)).timer = false) := by
  have hne : duration ≠ 0 := by linarith
  have hc := callback_num target hne (num 0) 0 true
  rw [if_pos (first_sum_reaches_negative ht hd)] at hc
  refine ⟨fun n => ?_, fun n => ?_⟩
  · simp [emitted, init, emittedFrom, hc, emittedFrom_stopped]
  · simp [run, init, runFrom, tick, hc, runFrom_stopped]

/-- Witness of the amended C21 at `target = -5`, `duration = 1200`. -/
theorem negative_target_first_tick_witness :
    ((-5 : ℚ) < 0 ∧ (16 : ℚ) ≤ 1200) ∧ (∀ n, emitted (-5) 1200 (n + 1) = [num (-5)]) ∧
      (∀ n, (run (-5) 1200 (n + 1)).timer = false) :=
  ⟨⟨by norm_num, by norm_num⟩, negative_target_first_tick (-5) 1200 (by norm_num)
    (by norm_num)⟩

end useAnimatedCounter

/-! ## The heat map: buckets -/

namespace HeatCell

/-- The bucket of a finite risk. -/
theorem idx_num (q : ℚ) :
    idx (num q) = if q ≤ 0 then 0 else if q ≤ 25 then 1 else if q ≤ 50 then 2
      else if q ≤ 75 then 3 else 4 := by
  simp [idx, JsNum.le]

theorem idx_posInf : idx posInf = 4 := by
  simp [idx, JsNum.le]

theorem idx_negInf : idx negInf = 0 := by
  simp [idx, JsNum.le]

/-- For `NaN` every comparison is false and the last bucket is chosen. -/
theorem idx_nan : idx nan = 4 := by
  simp [idx, JsNum.le]

/-- C22: for every risk that is a number (any value but `NaN`), the bucket index is at
most 4, so that the colour and the label lookups are defined; it is 0 iff
`risk <= 0`, 1 iff `0 < risk <= 25`, 2 iff `25 < risk <= 50`, 3 iff `50 < risk <= 75`,
4 iff `risk > 75`; and it is non-decreasing in the risk. -/
theorem idx_buckets (risk : JsNum) (hnum : risk ≠ nan) :
    idx risk ≤ 4 ∧ (colors[idx risk]?).isSome = true ∧
      (riskLabels[idx risk]?).isSome = true ∧
      (idx risk = 0 ↔ risk.le (num 0) = true) ∧
      (idx risk = 1 ↔ risk.gt (num 0) = true ∧ risk.le (num 25) = true) ∧
      (idx risk = 2 ↔ risk.gt (num 25) = true ∧ risk.le (num 50) = true) ∧
      (idx risk = 3 ↔ risk.gt (num 50) = true ∧ risk.le (num 75) = true) ∧
      (idx risk = 4 ↔ risk.gt (num 75) = true) ∧
      (∀ other : JsNum, other ≠ nan → risk.le other = true → idx risk ≤ idx other) := by
  have hle4 : ∀ r : JsNum, idx r ≤ 4 := by
    intro r
    unfold idx
    split_ifs <;> omega
  have hlook : ∀ k : ℕ, k ≤ 4 → (colors[k]?).isSome = true ∧ (riskLabels[k]?).isSome = true := by
    intro k hk
    interval_cases k <;> exact ⟨rfl, rfl⟩
  refine ⟨hle4 risk, (hlook _ (hle4 risk)).1, (hlook _ (hle4 risk)).2, ?_⟩
  cases risk with
  | nan => exact absurd rfl hnum
  | posInf =>
    refine ⟨?_, ?_, ?_, ?_, ?_, ?_⟩ <;> simp [idx_posInf, JsNum.le, JsNum.gt]
    intro other hother hle
    cases other with
    | nan => exact absurd rfl hother
    | posInf => exact idx_posInf.ge
    | negInf => simp [JsNum.le] at hle
    | num b => simp [JsNum.le] at hle
  | negInf =>
    refine ⟨?_, ?_, ?_, ?_, ?_, ?_⟩ <;> simp [idx_negInf, JsNum.le, JsNum.gt]
  | num q =>
    rw [idx_num]
    refine ⟨?_, ?_, ?_, ?_, ?_, ?_⟩
    · simp only [JsNum.le, decide_eq_true_eq]
      split_ifs <;> simp <;> linarith
    · simp only [JsNum.le, JsNum.gt, decide_eq_true_eq]
      split_ifs <;> simp <;> first | (constructor <;> linarith) | (intros; linarith)
    · simp only [JsNum.le, JsNum.gt, decide_eq_true_eq]
      split_ifs <;> simp <;> first | (constructor <;> linarith) | (intros; linarith)
    · simp only [JsNum.le, JsNum.gt, decide_eq_true_eq]
      split_ifs <;> simp <;> first | (constructor <;> linarith) | (intros; linarith)
    · simp only [JsNum.gt, decide_eq_true_eq]
      split_ifs <;> simp <;> linarith
    · intro other hother hle
      cases other with
      | nan => exact absurd rfl hother
      | posInf =>
        rw [idx_posInf]
        split_ifs <;> omega
      | negInf => simp [JsNum.le] at hle
      | num b =>
        rw [idx_num]
        simp only [JsNum.le, decide_eq_true_eq] at hle
        split_ifs <;> first | omega | linarith

/-- Witness of C22 at `risk = 62`, the risk of the entry ASI09. -/
theorem idx_buckets_witness :
    num 62 ≠ nan ∧ idx (num 62) = 3 ∧ idx (num 62) ≤ 4 ∧
      (idx (num 62) = 3 ↔ (num 62).gt (num 50) = true ∧ (num 62).le (num 75) = true) ∧
      (∀ other : JsNum, other ≠ nan → (num 62).le other = true →
        idx (num 62) ≤ idx other) := by
  have h := idx_buckets (num 62) (by simp)
  exact ⟨by simp, by decide!, h.1, h.2.2.2.2.2.2.1, h.2.2.2.2.2.2.2.2⟩

end HeatCell

/-! ## The arc gauge: claims -/

namespace RiskGauge

theorem mathPI_pos : 0 < mathPI := by
  unfold mathPI
  norm_num

theorem dasharray_eq : dasharray = num (2 * mathPI * 36 * (3 / 4)) := by
  simp [dasharray, circ, radius]

theorem dashoffset_eq (value : ℚ) :
    dashoffset value = num (2 * mathPI * 36 * (3 / 4) * (1 - value / 100)) := by
  unfold dashoffset
  rw [dasharray_eq, num_div_num value 100 (by norm_num)]
  simp

/-- C23: for every value with `0 <= value <= 100`, the dash offset lies between `0` and
`dasharray = 0.75 * 2 * Math.PI * 36`; it is strictly decreasing in the value, equals
`dasharray` at value 0 and `0` at value 100. -/
theorem dashoffset_bounds (value : ℚ) (h0 : 0 ≤ value) (h100 : value ≤ 100) :
    dasharray = num (3 / 4 * 2 * mathPI * 36) ∧
      (dashoffset value).ge (num 0) = true ∧
      dasharray.ge (dashoffset value) = true ∧
      (∀ other : ℚ, value < other → (dashoffset value).gt (dashoffset other) = true) ∧
      dashoffset 0 = dasharray ∧ dashoffset 100 = num 0 := by
  have hD : 0 < 2 * mathPI * 36 * (3 / 4) := by
    have := mathPI_pos
    positivity
  refine ⟨?_, ?_, ?_, ?_, ?_, ?_⟩
  · rw [dasharray_eq]
    congr 1
    ring
  · rw [dashoffset_eq, ge_num_num, decide_eq_true_eq]
    exact mul_nonneg hD.le (by linarith)
  · rw [dashoffset_eq, dasharray_eq, ge_num_num, decide_eq_true_eq]
    have : 1 - value / 100 ≤ 1 := by linarith
    nlinarith
  · intro other hlt
    rw [dashoffset_eq, dashoffset_eq, gt_num_num, decide_eq_true_eq]
    exact mul_lt_mul_of_pos_left (by linarith) hD
  · rw [dashoffset_eq, dasharray_eq]
    congr 1
    ring
  · rw [dashoffset_eq]
    congr 1
    ring

/-- Witness of C23 at `value = 62`. -/
theorem dashoffset_bounds_witness :
    ((0 : ℚ) ≤ 62 ∧ (62 : ℚ) ≤ 100) ∧
      dasharray = num (3 / 4 * 2 * mathPI * 36) ∧
      (dashoffset 62).ge (num 0) = true ∧
      dasharray.ge (dashoffset 62) = true ∧
      (∀ other : ℚ, 62 < other → (dashoffset 62).gt (dashoffset other) = true) ∧
      dashoffset 0 = dasharray ∧ dashoffset 100 = num 0 :=
  ⟨⟨by norm_num, by norm_num⟩, dashoffset_bounds 62 (by norm_num) (by norm_num)⟩

end RiskGauge

/-! ## The tabs of the dashboard: claims -/

namespace GovernanceDashboard

/-- A click leads to one of the four ids, whatever the index clicked. -/
theorem click_mem (activeTab : String) (i : ℕ)
    (h : activeTab ∈ ["overview", "owasp", "agents", "redteam"]) :
    click activeTab i ∈ ["overview", "owasp", "agents", "redteam"] := by
  rcases i with _ | _ | _ | _ | k
  · simp [click, tabs]
  · simp [click, tabs]
  · simp [click, tabs]
  · simp [click, tabs]
  · have hnone : tabs[k + 1 + 1 + 1 + 1]? = none := by simp [tabs]
    unfold click
    rw [hnone]
    exact h

theorem foldl_click_mem (clicks : List ℕ) :
    ∀ activeTab : String, activeTab ∈ ["overview", "owasp", "agents", "redteam"] →
      clicks.foldl click activeTab ∈ ["overview", "owasp", "agents", "redteam"] := by
  induction clicks with
  | nil => intro a h; exact h
  | cons i rest ih => intro a h; exact ih _ (click_mem a i h)

/-- C24: after any sequence of tab clicks, `activeTab` is one of the four ids
`overview`, `owasp`, `agents`, `redteam`, exactly one of the four panels is rendered
and exactly one tab button is highlighted. -/
theorem activeTab_always_a_tab (clicks : List ℕ) :
    activeTabAfter clicks ∈ ["overview", "owasp", "agents", "redteam"] ∧
      (panels (activeTabAfter clicks)).length = 1 ∧
      (highlighted (activeTabAfter clicks)).length = 1 := by
  have hmem : activeTabAfter clicks ∈ ["overview", "owasp", "agents", "redteam"] :=
    foldl_click_mem clicks initialTab (by simp [initialTab])
  refine ⟨hmem, ?_⟩
  simp only [List.mem_cons, List.mem_singleton, List.not_mem_nil, or_false] at hmem
  rcases hmem with h | h | h | h <;> rw [h] <;> exact ⟨by decide, by decide⟩

end GovernanceDashboard

/-! ## Rounding to binary64: known values -/

/-- Known values of the rounding: the literal `0.1`, an integer, a tie between two
neighbours (resolved to the even one), the least subnormal number, underflow to zero
and overflow to infinity. -/
theorem fl_known_values :
    fl (1 / 10) = num (3602879701896397 / 36028797018963968) ∧ fl 94 = num 94 ∧
      fl (2 ^ 53 + 1) = num (2 ^ 53) ∧ fl (2 ^ 53 + 3) = num (2 ^ 53 + 4) ∧
      fl (1 / 2 ^ 1074) = num (1 / 2 ^ 1074) ∧ fl (1 / 2 ^ 1075) = num 0 ∧
      fl (2 ^ 1024) = posInf ∧ fl (-(2 ^ 1024)) = negInf := by
  decide!

/-! ## The animated counter in binary64 -/

namespace useAnimatedCounter

theorem emittedFrom64_stopped (target duration : ℚ) (n : ℕ) (s : CounterState)
    (hs : s.timer = false) : emittedFrom64 target duration n s = [] := by
  cases n with
  | zero => rfl
  | succ n => simp [emittedFrom64, hs]

theorem runFrom64_stopped (target duration : ℚ) (n : ℕ) (s : CounterState)
    (hs : s.timer = false) : runFrom64 target duration n s = s := by
  induction n with
  | zero => rfl
  | succ n ih => simp [runFrom64, tick64, hs, ih]

/-- The emission of `k + m` periods is the emission of the first `k` periods followed
by the emission of `m` periods from the state reached. -/
theorem emittedFrom64_add (target duration : ℚ) (m : ℕ) :
    ∀ (k : ℕ) (s : CounterState),
      emittedFrom64 target duration (k + m) s =
        emittedFrom64 target duration k s ++
          emittedFrom64 target duration m (runFrom64 target duration k s) := by
  intro k
  induction k with
  | zero => intro s; simp [emittedFrom64, runFrom64]
  | succ k ih =>
    intro s
    have hkm : k + 1 + m = (k + m) + 1 := by omega
    rw [hkm]
    by_cases hs : s.timer = true
    · simp only [emittedFrom64, runFrom64, tick64, hs, if_true]
      rw [ih]
      rfl
    · have hf : s.timer = false := by simpa using hs
      rw [emittedFrom64_stopped _ _ _ _ hf, runFrom64_stopped _ _ _ _ hf,
        emittedFrom64_stopped _ _ _ _ hf, emittedFrom64_stopped _ _ _ _ hf]
      rfl

/-- While the interval is set, every period emits one value. -/
theorem length_emittedFrom64 (target duration : ℚ) :
    ∀ (k : ℕ) (s : CounterState), (runFrom64 target duration k s).timer = true →
      (emittedFrom64 target duration k s).length = k := by
  intro k
  induction k with
  | zero => intro s _; rfl
  | succ k ih =>
    intro s h
    by_cases hs : s.timer = true
    · simp only [runFrom64, tick64, hs, if_true] at h
      simp only [emittedFrom64, hs, if_true, List.length_cons]
      rw [ih _ h]
    · have hf : s.timer = false := by simpa using hs
      rw [runFrom64_stopped _ _ _ _ hf] at h
      rw [hf] at h
      exact absurd h (by decide)

/-- The state after one more period. -/
theorem run64_succ (target duration : ℚ) (k : ℕ) :
    run64 target duration (k + 1) = tick64 target duration (run64 target duration k) := by
  have h : ∀ (n : ℕ) (s : CounterState),
      runFrom64 target duration (n + 1) s =
        tick64 target duration (runFrom64 target duration n s) := by
    intro n
    induction n with
    | zero => intro s; rfl
    | succ n ih =>
      intro s
      show runFrom64 target duration (n + 1) (tick64 target duration s) = _
      rw [ih]
      rfl
  exact h k init

/-- Once the interval is cleared, more periods add nothing to the emission. -/
theorem emitted64_stable (target duration : ℚ) (k n : ℕ)
    (hstop : (run64 target duration k).timer = false) (hkn : k ≤ n) :
    emitted64 target duration n = emitted64 target duration k := by
  obtain ⟨m, rfl⟩ : ∃ m, n = k + m := ⟨n - k, by omega⟩
  have hstop2 : (runFrom64 target duration k init).timer = false := hstop
  unfold emitted64
  rw [emittedFrom64_add, emittedFrom64_stopped _ _ _ _ hstop2, List.append_nil]

/-- The value emitted at tick `j + 1`, when the interval is still set after `j` ticks. -/
theorem getElem?_emitted64 (target duration : ℚ) (j n : ℕ) (hjn : j < n)
    (hrun : (run64 target duration j).timer = true) :
    (emitted64 target duration n)[j]? =
      some (callback64 target duration (run64 target duration j)).val := by
  obtain ⟨m, rfl⟩ : ∃ m, n = j + (m + 1) := ⟨n - j - 1, by omega⟩
  have hrun2 : (runFrom64 target duration j init).timer = true := hrun
  have hlen := length_emittedFrom64 target duration j init hrun2
  unfold emitted64
  rw [emittedFrom64_add, List.getElem?_append_right (by omega), hlen, Nat.sub_self]
  simp only [emittedFrom64, hrun2, if_true, List.getElem?_cons_zero]
  rfl

/-- The state after 75 ticks with target 94 and duration 1200: the 75th binary64 partial
sum is `3307330976350203 / 2 ^ 45`, just below 94; the value shown is 94 (by rounding)
and the interval is still set. -/
theorem run64_94_at_75 :
    run64 94 1200 75 =
      { val := num 94, start := num (3307330976350203 / 35184372088832), timer := true } := by
  decide!

/-- The 76th tick with target 94 and duration 1200 reaches the target. -/
theorem run64_94_at_76 :
    run64 94 1200 76 =
      { val := num 94, start := num (3351428722701539 / 35184372088832), timer := false } := by
  rw [run64_succ, run64_94_at_75]
  decide!

/-- With target 94 and duration 1200 exactly 76 values are emitted in 76 periods, the
last of them 94. -/
theorem emitted64_94_at_76 :
    (emitted64 94 1200 76).length = 76 ∧ (emitted64 94 1200 76).getLast? = some (num 94) := by
  have hrun : (runFrom64 94 1200 75 init).timer = true := by
    have h := run64_94_at_75
    unfold run64 at h
    rw [h]
  have hsplit : emitted64 94 1200 76 =
      emittedFrom64 94 1200 75 init ++ emittedFrom64 94 1200 1 (runFrom64 94 1200 75 init) := by
    unfold emitted64
    rw [← emittedFrom64_add]
  have hlast : emittedFrom64 94 1200 1 (runFrom64 94 1200 75 init) = [num 94] := by
    have h := run64_94_at_75
    unfold run64 at h
    rw [h]
    decide!
  rw [hsplit, hlast]
  refine ⟨?_, by simp⟩
  rw [List.length_append, length_emittedFrom64 94 1200 75 init hrun]
  rfl

/-- C10 as stated fails on the program: `ceil(1200 / 16) = 75`, but with target 94 the
75th binary64 partial sum is `3307330976350203 / 2 ^ 45 < 94`, so the interval is still
set after 75 ticks and 76 values are emitted. -/
theorem not_stopped_after_ceil_ticks :
    ((0 : ℚ) < 94 ∧ (0 : ℚ) < 1200) ∧ ⌈(1200 : ℚ) / 16⌉₊ = 75 ∧
      (run64 94 1200 75).start = num (3307330976350203 / 35184372088832) ∧
      (3307330976350203 / 35184372088832 : ℚ) < 94 ∧
      (run64 94 1200 75).timer = true ∧ (emitted64 94 1200 80).length = 76 := by
  have hceil : ⌈(1200 : ℚ) / 16⌉₊ = 75 := by
    rw [show (1200 : ℚ) / 16 = ((75 : ℕ) : ℚ) by norm_num, Nat.ceil_natCast]
  have hstop : (run64 94 1200 76).timer = false := by rw [run64_94_at_76]
  refine ⟨⟨by norm_num, by norm_num⟩, hceil, ?_, by norm_num, ?_, ?_⟩
  · rw [run64_94_at_75]
  · rw [run64_94_at_75]
  · rw [emitted64_stable 94 1200 76 80 hstop (by norm_num)]
    exact emitted64_94_at_76.1

/-- C10, amended: for target 94 and duration 1200 the counter stops after 76 ticks: the
interval is set after 75 ticks and cleared after 76, exactly 76 values are emitted
however many periods follow, and the final value is exactly 94. -/
theorem stops_after_76_ticks :
    (run64 94 1200 75).timer = true ∧ (run64 94 1200 76).timer = false ∧
      (∀ n, 76 ≤ n → (emitted64 94 1200 n).length = 76) ∧
      (∀ n, 76 ≤ n → (emitted64 94 1200 n).getLast? = some (num 94)) := by
  have hstop : (run64 94 1200 76).timer = false := by rw [run64_94_at_76]
  refine ⟨by rw [run64_94_at_75], hstop, ?_, ?_⟩
  · intro n hn
    rw [emitted64_stable 94 1200 76 n hstop hn]
    exact emitted64_94_at_76.1
  · intro n hn
    rw [emitted64_stable 94 1200 76 n hstop hn]
    exact emitted64_94_at_76.2

/-- C12 as stated fails on the program.  With target 1 and duration 320 the product
`11 * step` is `11/20 < 1` and `round(10 * 11 * step) / 10` is `6/10`, exactly and in
binary64 alike, but the 11th binary64 partial sum is below `11/20` and tick 11 emits
`1/2`.  With target 94 and duration 1200 the first `k` with `k * step >= target` is 75,
but the interval is still set after tick 75 and a 76th value is emitted. -/
theorem tick_value_is_not_rounded_product :
    (((0 : ℚ) < 1 ∧ (0 : ℚ) < 320) ∧ (11 : ℚ) * (1 / (320 / 16)) < 1 ∧
        ((⌊10 * ((11 : ℚ) * (1 / (320 / 16))) + 1 / 2⌋ : ℤ) : ℚ) / 10 = 6 / 10 ∧
        (((num 11 * step64 1 320).fl64 * num 10).fl64.round / num 10).fl64 = fl (6 / 10) ∧
        (emitted64 1 320 25)[11 - 1]? = some (num (1 / 2))) ∧
      ((94 : ℚ) ≤ (75 : ℚ) * (94 / (1200 / 16)) ∧ (run64 94 1200 75).timer = true ∧
        (emitted64 94 1200 80).length = 76) := by
  have hfloor : ((⌊10 * ((11 : ℚ) * (1 / (320 / 16))) + 1 / 2⌋ : ℤ) : ℚ) / 10 = 6 / 10 := by
    have h6 : ⌊10 * ((11 : ℚ) * (1 / (320 / 16))) + 1 / 2⌋ = 6 := by
      rw [Int.floor_eq_iff]
      constructor <;> norm_num
    rw [h6]
    norm_num
  have hstop : (run64 94 1200 76).timer = false := by rw [run64_94_at_76]
  refine ⟨⟨⟨by norm_num, by norm_num⟩, by norm_num, hfloor, by decide!, by decide!⟩,
    by norm_num, by rw [run64_94_at_75], ?_⟩
  rw [emitted64_stable 94 1200 76 80 hstop (by norm_num)]
  exact emitted64_94_at_76.1

/-- C12, amended: for every target and duration, with `step` the binary64 value of
`target / (duration / 16)` and an accumulator that starts at `0` and is increased by
`step` in binary64 at every tick: at tick `j + 1`, while the interval is set, the
accumulated sum `S` is the binary64 sum of the previous one and `step`; if `S >= target`
does not hold, the emitted value is `round(10 * S) / 10` computed in binary64 and the
interval stays set; if `S >= target`, the emitted value is `target` itself, the interval
is cleared and nothing is emitted afterwards. -/
theorem emitted64_value_at_tick (target duration : ℚ) (j n : ℕ) (hjn : j < n)
    (hrun : (run64 target duration j).timer = true) :
    (run64 target duration 0).start = num 0 ∧
      (run64 target duration (j + 1)).start =
        ((run64 target duration j).start + step64 target duration).fl64 ∧
      ((run64 target duration (j + 1)).start.ge (fl target) = false →
        (emitted64 target duration n)[j]? =
            some (((run64 target duration (j + 1)).start * num 10).fl64.round / num 10).fl64 ∧
          (run64 target duration (j + 1)).timer = true) ∧
      ((run64 target duration (j + 1)).start.ge (fl target) = true →
        (emitted64 target duration n)[j]? = some (fl target) ∧
          (run64 target duration (j + 1)).timer = false ∧
          (emitted64 target duration n).length = j + 1) := by
  have hget := getElem?_emitted64 target duration j n hjn hrun
  have hsucc : run64 target duration (j + 1) =
      callback64 target duration (run64 target duration j) := by
    rw [run64_succ, tick64, if_pos hrun]
  have hstart : (run64 target duration (j + 1)).start =
      ((run64 target duration j).start + step64 target duration).fl64 := by
    rw [hsucc]
    unfold callback64
    simp only []
    split_ifs <;> rfl
  refine ⟨rfl, hstart, ?_, ?_⟩
  · intro hlt
    rw [hstart] at hlt
    have hcb : callback64 target duration (run64 target duration j) =
        { val := ((((run64 target duration j).start + step64 target duration).fl64
            * num 10).fl64.round / num 10).fl64,
          start := ((run64 target duration j).start + step64 target duration).fl64,
          timer := true } := by
      unfold callback64
      simp only [hlt, Bool.false_eq_true, if_false]
    rw [hget, hsucc, hcb]
    exact ⟨rfl, rfl⟩
  · intro hge
    rw [hstart] at hge
    have hcb : callback64 target duration (run64 target duration j) =
        { val := fl target,
          start := ((run64 target duration j).start + step64 target duration).fl64,
          timer := false } := by
      unfold callback64
      simp only [hge, if_true]
    have hstop : (run64 target duration (j + 1)).timer = false := by
      rw [hsucc, hcb]
    refine ⟨by rw [hget, hcb], hstop, ?_⟩
    have hlen : (emitted64 target duration (j + 1)).length = j + 1 := by
      have hj1 : (emitted64 target duration (j + 1)) =
          emittedFrom64 target duration j init ++
            emittedFrom64 target duration 1 (runFrom64 target duration j init) := by
        unfold emitted64
        rw [emittedFrom64_add]
      have hrun2 : (runFrom64 target duration j init).timer = true := hrun
      rw [hj1, List.length_append, length_emittedFrom64 target duration j init hrun2]
      simp [emittedFrom64, hrun2]
    rw [emitted64_stable target duration (j + 1) n hstop (by omega), hlen]

/-- Witness of the amended C12 at target 1, duration 320, tick 11 within 25 periods:
the accumulated sum is below the target and the value emitted is `1/2`. -/
theorem emitted64_value_at_tick_witness :
    (10 < 25 ∧ (run64 1 320 10).timer = true) ∧
      (run64 1 320 (10 + 1)).start.ge (fl 1) = false ∧
      (emitted64 1 320 25)[10]? =
        some (((run64 1 320 (10 + 1)).start * num 10).fl64.round / num 10).fl64 ∧
      (((run64 1 320 (10 + 1)).start * num 10).fl64.round / num 10).fl64 = num (1 / 2) ∧
      (run64 1 320 (10 + 1)).timer = true := by
  have hrun : (run64 1 320 10).timer = true := by decide!
  have hlt : (run64 1 320 (10 + 1)).start.ge (fl 1) = false := by decide!
  have h := (emitted64_value_at_tick 1 320 10 25 (by norm_num) hrun).2.2.1 hlt
  exact ⟨⟨by norm_num, hrun⟩, hlt, h.1, by decide!, h.2⟩

end useAnimatedCounter

end Dashboard
